import Mathlib

/-!
# gossipchat: the replicated message log

A shallow embedding of `messages.go` (the bounded, deduplicated, time-ordered
message store with its snapshot encoding and merge) and of `broadcasts.go`
(the broadcast invalidation predicate).

Conventions of the embedding.

* A `time.Time` is an instant on a totally ordered line, an `Int`, and
  `Time.Before` is `<`.  Every call of `time.Now()` is an explicit argument.
* A Go `string` is a sequence of bytes, `GoString := List UInt8`, and need not
  be valid UTF-8; a `[]byte` is a `List UInt8` as well.
* The Go map `uuidToMsg` is an association list with at most one entry per key.
* The standard library is not part of the repository.  `sort.Sort` and
  `encoding/json` are arguments of the functions that call them; what is
  assumed of them is written as a contract (`SortContract`, `JsonLaws`) and
  appears as a hypothesis of each theorem that needs it.
* The mutex and the log lines have no effect on the values computed and are
  left out.  A run-time panic (index or slice bound out of range, the
  explicit `panic` of `newMessageDB`) is the result `none`.
-/

namespace gossipchat

/-- The method `Time.Before`, on two instants. -/
def Before (t u : Int) : Bool := decide (t < u)

/-- A byte slice `[]byte`. -/
abbrev Bytes := List UInt8

/-- A Go `string`: any sequence of bytes. -/
abbrev GoString := List UInt8

/-- The Go string written as an ASCII literal. -/
def ascii (s : String) : GoString := s.data.map (fun c => UInt8.ofNat c.toNat)

/-- A Go `error` value; `none` is `nil`. -/
abbrev GoError := Option String

deriving instance DecidableEq for Except

/-- The struct `message`. -/
structure message where
  Time : Int
  UUID : GoString
  Author : GoString
  Msg : GoString
deriving DecidableEq, Repr

/-- The zero value of `message`, as allocated by `new(message)`. -/
def message.zero : message := ⟨0, [], [], []⟩

/-- The method `byTime.Less`, on the two elements `b[i]` and `b[j]`. -/
def byTime.Less (x y : message) : Bool := Before x.Time y.Time

/-- The function `newMessage`; the readings of `time.Now()` and `uuid.New()` are arguments. -/
def newMessage (now : Int) (newUUID : GoString) (author msg : GoString) : message :=
  ⟨now, newUUID, author, msg⟩

/-- The fields of a `message` that travel in JSON: `Time` is tagged `json:"-"`.
It is also the local struct `v` of `message.UnmarshalJSON`. -/
structure jsonFields where
  UUID : GoString
  Author : GoString
  Msg : GoString
deriving DecidableEq, Repr

/-- The projection of a message on its JSON fields. -/
def message.fields (msg : message) : jsonFields := ⟨msg.UUID, msg.Author, msg.Msg⟩

/-- The uses of `encoding/json` in `messages.go`.
`Marshal` is `json.Marshal(msg)`, `Unmarshal` is `json.Unmarshal(data, &v)`,
`MarshalExport` is `json.Marshal(export)`, and `UnmarshalExport` is the part of
`json.Unmarshal(data, &export)` done by the library: it finds the elements of
`Messages` and hands the bytes of each one to `message.UnmarshalJSON`.
`Coerce s` is the string that JSON carries for the Go string `s`: the encoder
writes U+FFFD for every byte that is not part of a valid UTF-8 sequence, so
`Coerce s` is `s` exactly when `s` is valid UTF-8. -/
structure Json where
  Marshal : jsonFields → Bytes
  Unmarshal : Bytes → Except String jsonFields
  MarshalExport : List jsonFields → Bytes
  UnmarshalExport : Bytes → Except String (List Bytes)
  Coerce : GoString → GoString

/-- The fields of a message as JSON carries them. -/
def jsonFields.coerce (J : Json) (v : jsonFields) : jsonFields :=
  ⟨J.Coerce v.UUID, J.Coerce v.Author, J.Coerce v.Msg⟩

/-- What is assumed of `encoding/json`: decoding an encoding succeeds and gives
the value back as JSON carries it, and the elements of an encoded list are the
encodings of its elements. -/
structure JsonLaws (J : Json) : Prop where
  roundtrip : ∀ v, J.Unmarshal (J.Marshal v) = .ok (v.coerce J)
  roundtripExport : ∀ vs, J.UnmarshalExport (J.MarshalExport vs) = .ok (vs.map J.Marshal)

/-- The method `message.Encode`. -/
def message.Encode (J : Json) (msg : message) : Bytes := J.Marshal msg.fields

/-- The method `message.UnmarshalJSON`: the receiver afterwards and the error returned. -/
def message.UnmarshalJSON (J : Json) (now : Int) (msg : message) (data : Bytes) :
    message × GoError :=
  match J.Unmarshal data with
  | .error err => (msg, some err)
  | .ok v => (⟨now, v.UUID, v.Author, v.Msg⟩, none)

/-- The method `message.Decode`. -/
def message.Decode (J : Json) (now : Int) (msg : message) (data : Bytes) :
    message × GoError :=
  message.UnmarshalJSON J now msg data

/-- The test `_, ok := m[k]` on a Go map. -/
def mapHas (m : List (GoString × message)) (k : GoString) : Bool := decide (k ∈ m.map Prod.fst)

/-- The assignment `m[k] = v` on a Go map. -/
def mapSet (m : List (GoString × message)) (k : GoString) (v : message) : List (GoString × message) :=
  (k, v) :: m.filter (fun e => decide (e.1 ≠ k))

/-- The call `delete(m, k)` on a Go map. -/
def mapDelete (m : List (GoString × message)) (k : GoString) : List (GoString × message) :=
  m.filter (fun e => decide (e.1 ≠ k))

/-- The struct `messageDB`. -/
structure messageDB where
  maxHistory : Int
  uuidToMsg : List (GoString × message)
  sortedCache : List message
deriving DecidableEq, Repr

/-- The function `newMessageDB`; `none` is its `panic`. -/
def newMessageDB (maxHistory : Int) : Option messageDB :=
  if maxHistory < 1 then none else some ⟨maxHistory, [], []⟩

/-- The method `messageDB.Messages`. -/
def messageDB.Messages (db : messageDB) : List message := db.sortedCache

/-- The condition `len(db.uuidToMsg) >= db.maxHistory && msg.Time.Before(db.sortedCache[0].Time)`
of `put`; `none` is the panic of `db.sortedCache[0]` on an empty slice. -/
def messageDB.tooOld (db : messageDB) (msg : message) : Option Bool :=
  if (db.uuidToMsg.length : Int) ≥ db.maxHistory then
    match db.sortedCache with
    | [] => none
    | oldest :: _ => some (Before msg.Time oldest.Time)
  else some false

/-- The method `messageDB.put`; `sort` is `sort.Sort` on a `byTime`, `none` is a panic. -/
def messageDB.put (sort : List message → List message) (db : messageDB) (msg : message) :
    Option messageDB :=
  if mapHas db.uuidToMsg msg.UUID then
    some db
  else
    match db.tooOld msg with
    | none => none
    | some true => some db
    | some false =>
      let uuidToMsg := mapSet db.uuidToMsg msg.UUID msg
      let sortedCache := sort (db.sortedCache ++ [msg])
      if (uuidToMsg.length : Int) ≤ db.maxHistory then
        some ⟨db.maxHistory, uuidToMsg, sortedCache⟩
      else
        let extra : Int := (sortedCache.length : Int) - db.maxHistory
        if extra < 0 ∨ (sortedCache.length : Int) < extra then
          none
        else
          let toDelete := sortedCache.take extra.toNat
          some ⟨db.maxHistory,
            toDelete.foldl (fun m x => mapDelete m x.UUID) uuidToMsg,
            sortedCache.drop extra.toNat⟩

/-- The method `messageDB.Put`. -/
def messageDB.Put (sort : List message → List message) (db : messageDB) (msg : message) :
    Option messageDB :=
  db.put sort msg

/-- The loop `for _, msg := range export.Messages { db.put(msg) }`. -/
def messageDB.putAll (sort : List message → List message) :
    messageDB → List message → Option messageDB
  | db, [] => some db
  | db, msg :: rest => (db.put sort msg).bind (fun db1 => messageDB.putAll sort db1 rest)

/-- The function `encodeMessageDB`. -/
def encodeMessageDB (J : Json) (db : messageDB) : Bytes :=
  J.MarshalExport (db.Messages.map message.fields)

/-- The calls of `message.UnmarshalJSON` made while `json.Unmarshal` fills
`export.Messages`; the call for element `i` reads `clock i` from `time.Now()`. -/
def decodeElements (J : Json) (clock : Nat → Int) : Nat → List Bytes → Except String (List message)
  | _, [] => .ok []
  | i, raw :: rest =>
    match message.UnmarshalJSON J (clock i) message.zero raw with
    | (_, some err) => .error err
    | (msg, none) =>
      match decodeElements J clock (i + 1) rest with
      | .error err => .error err
      | .ok msgs => .ok (msg :: msgs)

/-- The call `json.Unmarshal(data, &export)` of `mergeRemoteDB`. -/
def unmarshalExport (J : Json) (clock : Nat → Int) (data : Bytes) : Except String (List message) :=
  match J.UnmarshalExport data with
  | .error err => .error err
  | .ok raws => decodeElements J clock 0 raws

/-- The method `messageDB.mergeRemoteDB`: the store afterwards and the error
returned; `none` is a panic inside `put`. -/
def messageDB.mergeRemoteDB (J : Json) (sort : List message → List message)
    (clock : Nat → Int) (db : messageDB) (data : Bytes) : Option (messageDB × GoError) :=
  match unmarshalExport J clock data with
  | .error err => some (db, some err)
  | .ok msgs => (db.putAll sort msgs).map (fun db1 => (db1, none))

/-- The struct `chatMsg`. -/
structure chatMsg where
  message : message
  data : Bytes
deriving DecidableEq, Repr

/-- The function `newChatBroadcast`. -/
def newChatBroadcast (J : Json) (msg : message) : chatMsg := ⟨msg, msg.Encode J⟩

/-- The method `chatMsg.Message`. -/
def chatMsg.Message (bdcst : chatMsg) : Bytes := bdcst.data

/-- The method `chatMsg.Invalidates`; `now` is the reading of `time.Now()` inside `Decode`. -/
def chatMsg.Invalidates (J : Json) (now : Int) (bdcst b : chatMsg) : Bool :=
  match message.Decode J now message.zero b.Message with
  | (_, some _) => false
  | (other, none) => decide (other.UUID = bdcst.message.UUID)

/-- A slice is sorted by `byTime`: no element is `Less` than one before it. -/
def sortedByTime (l : List message) : Prop := l.Pairwise (fun x y => byTime.Less y x = false)

/-- The contract of `sort.Sort`: the result is a rearrangement of the input, in
ascending order as determined by `Less`.  Nothing is promised about elements
that compare equal. -/
structure SortContract (sort : List message → List message) : Prop where
  perm : ∀ l, (sort l).Perm l
  sorted : ∀ l, sortedByTime (sort l)

/-- A sort is stable: elements with equal `Time` keep their relative order. -/
def StableSort (sort : List message → List message) : Prop :=
  ∀ l t, (sort l).filter (fun x => decide (x.Time = t)) = l.filter (fun x => decide (x.Time = t))

/-- The stores a node can hold: built by `newMessageDB n`, then changed by any
sequence of calls of `Put` and `mergeRemoteDB`. -/
inductive Reachable (J : Json) (sort : List message → List message) (n : Int) : messageDB → Prop
  | init (db : messageDB) : newMessageDB n = some db → Reachable J sort n db
  | afterPut (db : messageDB) (msg : message) (db1 : messageDB) :
      Reachable J sort n db → db.Put sort msg = some db1 → Reachable J sort n db1
  | afterMerge (db : messageDB) (clock : Nat → Int) (data : Bytes) (db1 : messageDB)
      (err : GoError) :
      Reachable J sort n db → db.mergeRemoteDB J sort clock data = some (db1, err) →
      Reachable J sort n db1

/-- Insertion of one element into a sorted slice, after every element that is not
greater: the inner loop of the insertion sort that `sort.Sort` runs on short slices. -/
def insertSorted (x : message) : List message → List message
  | [] => [x]
  | y :: ys => if byTime.Less x y then x :: y :: ys else y :: insertSorted x ys

/-- Insertion sort by `byTime.Less`, an instance of `sort.Sort`. -/
def insertionSort (l : List message) : List message :=
  l.foldl (fun acc x => insertSorted x acc) []

/-- Insertion sort applied to the reversed slice: it meets the contract of
`sort.Sort` and reverses the order of elements that compare equal. -/
def reverseSort (l : List message) : List message := insertionSort l.reverse

/-- A continuation byte of UTF-8. -/
def utf8Cont (b : UInt8) : Bool := decide (0x80 ≤ b) && decide (b ≤ 0xBF)

/-- The size of the valid UTF-8 sequence that starts with `b0` followed by
`rest`, as `utf8.DecodeRune` finds it; `0` when there is none. -/
def utf8Size (b0 : UInt8) (rest : List UInt8) : Nat :=
  if b0 < 0x80 then 1
  else if b0 < 0xC2 then 0
  else if b0 ≤ 0xDF then
    match rest with
    | b1 :: _ => if utf8Cont b1 then 2 else 0
    | _ => 0
  else if b0 ≤ 0xEF then
    match rest with
    | b1 :: b2 :: _ =>
      if decide ((if b0 = 0xE0 then 0xA0 else 0x80) ≤ b1)
          && decide (b1 ≤ (if b0 = 0xED then 0x9F else 0xBF)) && utf8Cont b2 then 3 else 0
    | _ => 0
  else if b0 ≤ 0xF4 then
    match rest with
    | b1 :: b2 :: b3 :: _ =>
      if decide ((if b0 = 0xF0 then 0x90 else 0x80) ≤ b1)
          && decide (b1 ≤ (if b0 = 0xF4 then 0x8F else 0xBF))
          && utf8Cont b2 && utf8Cont b3 then 4 else 0
    | _ => 0
  else 0

/-- The coercion of the JSON encoder, byte by byte: `skip` counts the bytes
still to copy of a sequence found valid; a byte that starts no valid sequence
becomes U+FFFD, the bytes `EF BF BD`. -/
def toValidUTF8Aux : Nat → List UInt8 → List UInt8
  | _, [] => []
  | skip + 1, b :: rest => b :: toValidUTF8Aux skip rest
  | 0, b :: rest =>
    if utf8Size b rest = 0 then 0xEF :: 0xBF :: 0xBD :: toValidUTF8Aux 0 rest
    else b :: toValidUTF8Aux (utf8Size b rest - 1) rest

/-- The string that `encoding/json` carries for a Go string. -/
def toValidUTF8 (s : GoString) : GoString := toValidUTF8Aux 0 s

/-- The reference codec frames a sequence of bytes: each byte after a `5`, then a `6`. -/
def refFrame : Bytes → Bytes
  | [] => [6]
  | b :: bs => 5 :: b :: refFrame bs

/-- The reference codec reads a framed sequence back: the bytes and what is left over;
`lit` says that the byte before was a `5`. -/
def refUnframe : Bytes → Bool → Option (Bytes × Bytes)
  | [], _ => none
  | b :: rest, true =>
    match refUnframe rest false with
    | none => none
    | some (bs, left) => some (b :: bs, left)
  | b :: rest, false =>
    if b = 6 then some ([], rest)
    else if b = 5 then refUnframe rest true
    else none

/-- The reference codec writes the three fields, coerced to valid UTF-8, one after the other. -/
def refMarshal (v : jsonFields) : Bytes :=
  refFrame (toValidUTF8 v.UUID)
    ++ (refFrame (toValidUTF8 v.Author) ++ refFrame (toValidUTF8 v.Msg))

/-- The reference codec reads three fields and accepts no trailing byte. -/
def refUnmarshal (data : Bytes) : Except String jsonFields :=
  match refUnframe data false with
  | none => .error "invalid uuid"
  | some (u, r1) =>
    match refUnframe r1 false with
    | none => .error "invalid author"
    | some (a, r2) =>
      match refUnframe r2 false with
      | some (m, []) => .ok ⟨u, a, m⟩
      | _ => .error "invalid msg"

/-- The reference codec writes a list as its framed elements followed by the byte `7`. -/
def refMarshalExport : List jsonFields → Bytes
  | [] => [7]
  | v :: vs => refFrame (refMarshal v) ++ refMarshalExport vs

/-- The reference codec splits a list into the bytes of its elements; `cur` is
the element being read, `lit` says that the byte before was a `5`. -/
def refSplit : Bytes → Bytes → Bool → Except String (List Bytes)
  | [], _, _ => .error "unexpected end"
  | b :: rest, cur, true => refSplit rest (cur ++ [b]) false
  | b :: rest, cur, false =>
    if b = 7 then
      (if rest = [] ∧ cur = [] then .ok [] else .error "trailing bytes")
    else if b = 6 then
      match refSplit rest [] false with
      | .error err => .error err
      | .ok elems => .ok (cur :: elems)
    else if b = 5 then refSplit rest cur true
    else .error "invalid frame"

/-- A reference codec: an instance of `Json` that meets `JsonLaws`, with the
coercion to valid UTF-8 of `encoding/json`.  It stands for `encoding/json`
wherever a concrete codec is needed. -/
def refJson : Json :=
  ⟨refMarshal, refUnmarshal, refMarshalExport, fun data => refSplit data [] false, toValidUTF8⟩

/-- The representation invariant of a store: the map and the slice hold the
same messages, one per UUID, the slice is sorted by time and within capacity. -/
structure Inv (db : messageDB) : Prop where
  cap : 1 ≤ db.maxHistory
  keyed : ∀ e ∈ db.uuidToMsg, e.1 = e.2.UUID
  same : (db.uuidToMsg.map Prod.snd).Perm db.sortedCache
  nodup : (db.sortedCache.map message.UUID).Nodup
  sorted : sortedByTime db.sortedCache
  bound : (db.sortedCache.length : Int) ≤ db.maxHistory

/-- The messages decoded from the elements of a snapshot: element `i` (counted
from `start`) receives the reading `clock i` of `time.Now()` as its `Time`. -/
def stamp (clock : Nat → Int) : Nat → List jsonFields → List message
  | _, [] => []
  | i, v :: vs => ⟨clock i, v.UUID, v.Author, v.Msg⟩ :: stamp clock (i + 1) vs

/-! ## Concrete data: the scenario of the specification -/

/-- The message `M0` of the scenario, with timestamp `0`. -/
def exM0 : message := ⟨0, ascii "m0", ascii "ann", ascii "zero"⟩

/-- The message `M1` of the scenario, with timestamp `1`. -/
def exM1 : message := ⟨1, ascii "m1", ascii "ann", ascii "one"⟩

/-- The message `M2` of the scenario, with timestamp `2`. -/
def exM2 : message := ⟨2, ascii "m2", ascii "bob", ascii "two"⟩

/-- The message `M3` of the scenario, with timestamp `3`. -/
def exM3 : message := ⟨3, ascii "m3", ascii "cat", ascii "three"⟩

/-- A later message, with timestamp `4`. -/
def exM4 : message := ⟨4, ascii "m4", ascii "dan", ascii "four"⟩

/-- A payload that is not the encoding of a message. -/
def exCorrupted : chatMsg := ⟨exM1, [9, 9, 9]⟩

/-- A second message with the UUID of `exM4`, and another author and text. -/
def exCopy : message := ⟨9, ascii "m4", ascii "zed", ascii "other"⟩

/-- A message older than everything in `exStore`. -/
def exOld : message := ⟨0, ascii "x", ascii "ann", ascii "first"⟩

/-- A recent message with the UUID of `exOld`, and another author and text. -/
def exNew : message := ⟨9, ascii "x", ascii "bob", ascii "second"⟩

/-- A clock whose readings are later than every timestamp of the scenario. -/
def exClock (i : Nat) : Int := 10 + i

/-- The message `Ma` of the merge scenario. -/
def exMa : message := ⟨1, ascii "a", ascii "ann", ascii "first"⟩

/-- The message `Mb` of the merge scenario. -/
def exMb : message := ⟨2, ascii "b", ascii "bob", ascii "second"⟩

/-- The message `Mc` of the merge scenario. -/
def exMc : message := ⟨3, ascii "c", ascii "cat", ascii "third"⟩

/-- The store `A` of the merge scenario: capacity 10, holding `Ma` and `Mb`. -/
def exA : messageDB := ⟨10, [(ascii "b", exMb), (ascii "a", exMa)], [exMa, exMb]⟩

/-- The store `B` of the merge scenario: capacity 10, holding `Mb` and `Mc`. -/
def exB : messageDB := ⟨10, [(ascii "c", exMc), (ascii "b", exMb)], [exMb, exMc]⟩

/-- A message whose UUID ends with the byte `FF`, which is not valid UTF-8. -/
def exBadId : message := ⟨1, ascii "id-" ++ [0xFF], ascii "ann", ascii "hello"⟩

/-- A message whose UUID ends with U+FFFD, the bytes `EF BF BD`. -/
def exFffdId : message := ⟨1, ascii "id-" ++ [0xEF, 0xBF, 0xBD], ascii "ann", ascii "hello"⟩

/-- A clock that gives the same reading every time. -/
def exFlatClock (_ : Nat) : Int := 10

/-- A message whose author ends with the byte `FF`, which is not valid UTF-8. -/
def exAnnFF : message := ⟨1, ascii "m1", ascii "ann" ++ [0xFF], ascii "one"⟩

/-- The store of capacity 2 that holds `exAnnFF`. -/
def exStoreFF : messageDB := ⟨2, [(ascii "m1", exAnnFF)], [exAnnFF]⟩

/-- The store of capacity 2 that holds `exBadId`. -/
def exStoreBadId : messageDB := ⟨2, [(ascii "id-" ++ [0xFF], exBadId)], [exBadId]⟩

/-- A second message with the UUID of `M2`, and another author and text. -/
def exM2b : message := ⟨9, ascii "m2", ascii "zed", ascii "other"⟩

/-- The store of capacity 10 that holds `exAnnFF`. -/
def exAFF : messageDB := ⟨10, [(ascii "m1", exAnnFF)], [exAnnFF]⟩

/-- The empty store of capacity 10. -/
def exEmpty : messageDB := ⟨10, [], []⟩

/-- A third message with the UUID of `M2`, and yet another author and text. -/
def exM2c : message := ⟨9, ascii "m2", ascii "yan", ascii "third"⟩

/-- The store of capacity 10 that holds `exBadId`. -/
def exABadId : messageDB := ⟨10, [(ascii "id-" ++ [0xFF], exBadId)], [exBadId]⟩

/-- A clock whose readings go backwards. -/
def exBackClock (i : Nat) : Int := 10 - i

/-- The store of capacity 2 after `M1`, `M2`, `M3` were put in this order. -/
def exStore : messageDB := ⟨2, [(ascii "m3", exM3), (ascii "m2", exM2)], [exM2, exM3]⟩

/-! ## The map -/

theorem mapHas_iff (m : List (GoString × message)) (k : GoString) :
    mapHas m k = true ↔ k ∈ m.map Prod.fst := by
  simp [mapHas]

theorem keys_eq_of_keyed (m : List (GoString × message)) (h : ∀ e ∈ m, e.1 = e.2.UUID) :
    m.map Prod.fst = (m.map Prod.snd).map message.UUID := by
  rw [List.map_map]
  apply List.map_congr_left
  intro e he
  simpa using h e he

theorem Inv.length_eq {db : messageDB} (h : Inv db) :
    db.uuidToMsg.length = db.sortedCache.length := by
  have := h.same.length_eq
  simpa using this

theorem Inv.known_iff {db : messageDB} (h : Inv db) (k : GoString) :
    mapHas db.uuidToMsg k = true ↔ k ∈ db.sortedCache.map message.UUID := by
  rw [gossipchat.mapHas_iff, keys_eq_of_keyed _ h.keyed]
  exact (h.same.map message.UUID).mem_iff

theorem mapSet_of_not_has (m : List (GoString × message)) (k : GoString) (v : message)
    (h : mapHas m k = false) : mapSet m k v = (k, v) :: m := by
  unfold mapSet
  congr 1
  rw [List.filter_eq_self]
  intro e he
  have hk : ¬ k ∈ m.map Prod.fst := by
    intro hmem
    have := (mapHas_iff m k).2 hmem
    rw [h] at this
    exact Bool.noConfusion this
  have : e.1 ≠ k := by
    intro heq
    exact hk (heq ▸ List.mem_map_of_mem Prod.fst he)
  simpa using this

theorem foldl_mapDelete (td : List message) (m : List (GoString × message)) :
    td.foldl (fun m x => mapDelete m x.UUID) m
      = m.filter (fun e => decide (e.1 ∉ td.map message.UUID)) := by
  induction td generalizing m with
  | nil => simp
  | cons x xs ih =>
    rw [List.foldl_cons, ih]
    unfold mapDelete
    rw [List.filter_filter]
    apply List.filter_congr
    intro e _
    by_cases h1 : e.1 = x.UUID <;> by_cases h2 : e.1 ∈ xs.map message.UUID <;> simp [h1, h2]

theorem map_snd_filter_keys (m : List (GoString × message)) (h : ∀ e ∈ m, e.1 = e.2.UUID)
    (p : GoString → Bool) :
    (m.filter (fun e => p e.1)).map Prod.snd = (m.map Prod.snd).filter (fun x => p x.UUID) := by
  induction m with
  | nil => simp
  | cons e es ih =>
    have he : e.1 = e.2.UUID := h e (List.mem_cons_self _ _)
    have hes : ∀ e1 ∈ es, e1.1 = e1.2.UUID := fun e1 h1 => h e1 (List.mem_cons_of_mem _ h1)
    simp only [List.filter_cons, List.map_cons]
    rw [← he]
    by_cases hp : p e.1 = true
    · simp [hp, ih hes]
    · simp [hp, ih hes]

/-- Deleting from the map the keys of a front part of the slice leaves the messages of the rest. -/
theorem evict_perm (m : List (GoString × message)) (td rest : List message)
    (hk : ∀ e ∈ m, e.1 = e.2.UUID) (hp : (m.map Prod.snd).Perm (td ++ rest))
    (hn : ((td ++ rest).map message.UUID).Nodup) :
    ((td.foldl (fun m x => mapDelete m x.UUID) m).map Prod.snd).Perm rest := by
  rw [foldl_mapDelete]
  rw [map_snd_filter_keys m hk (fun k => decide (k ∉ td.map message.UUID))]
  refine (hp.filter _).trans ?_
  rw [List.filter_append]
  rw [List.map_append] at hn
  have hdis := List.disjoint_of_nodup_append hn
  have h1 : td.filter (fun x => decide (x.UUID ∉ td.map message.UUID)) = [] := by
    rw [List.filter_eq_nil_iff]
    intro x hx
    simp
    exact ⟨x, hx, rfl⟩
  have h2 : rest.filter (fun x => decide (x.UUID ∉ td.map message.UUID)) = rest := by
    rw [List.filter_eq_self]
    intro x hx
    have : x.UUID ∉ td.map message.UUID := fun hmem => hdis hmem (List.mem_map_of_mem _ hx)
    simpa using this
  rw [h1, h2]
  simp

theorem evict_keyed (m : List (GoString × message)) (td : List message)
    (hk : ∀ e ∈ m, e.1 = e.2.UUID) :
    ∀ e ∈ td.foldl (fun m x => mapDelete m x.UUID) m, e.1 = e.2.UUID := by
  rw [foldl_mapDelete]
  intro e he
  exact hk e (List.mem_of_mem_filter he)

/-! ## One call of `put` -/

theorem put_known (sort : List message → List message) (db : messageDB) (msg : message)
    (hk : mapHas db.uuidToMsg msg.UUID = true) : db.put sort msg = some db := by
  simp [messageDB.put, hk]

theorem put_rejected (sort : List message → List message) (db : messageDB) (msg : message)
    (hk : mapHas db.uuidToMsg msg.UUID = false) (ht : db.tooOld msg = some true) :
    db.put sort msg = some db := by
  simp [messageDB.put, hk, ht]

theorem put_room (sort : List message → List message) (db : messageDB) (msg : message)
    (hk : mapHas db.uuidToMsg msg.UUID = false) (ht : db.tooOld msg = some false)
    (hlen : (db.uuidToMsg.length : Int) < db.maxHistory) :
    db.put sort msg
      = some ⟨db.maxHistory, (msg.UUID, msg) :: db.uuidToMsg, sort (db.sortedCache ++ [msg])⟩ := by
  have hlen2 : ((mapSet db.uuidToMsg msg.UUID msg).length : Int) ≤ db.maxHistory := by
    rw [mapSet_of_not_has _ _ _ hk]
    simp only [List.length_cons, Nat.cast_add, Nat.cast_one]
    omega
  simp only [messageDB.put, hk, ht, hlen2]
  simp [mapSet_of_not_has _ _ _ hk]

theorem put_full (sort : List message → List message) (hS : SortContract sort)
    (db : messageDB) (msg : message) (hinv : Inv db)
    (hk : mapHas db.uuidToMsg msg.UUID = false) (ht : db.tooOld msg = some false)
    (hlen : (db.uuidToMsg.length : Int) = db.maxHistory) :
    db.put sort msg
      = some ⟨db.maxHistory,
          ((sort (db.sortedCache ++ [msg])).take 1).foldl (fun m x => mapDelete m x.UUID)
            ((msg.UUID, msg) :: db.uuidToMsg),
          (sort (db.sortedCache ++ [msg])).drop 1⟩ := by
  have hlen2 : ¬ ((mapSet db.uuidToMsg msg.UUID msg).length : Int) ≤ db.maxHistory := by
    rw [mapSet_of_not_has _ _ _ hk]
    simp only [List.length_cons, Nat.cast_add, Nat.cast_one]
    omega
  have hsl : ((sort (db.sortedCache ++ [msg])).length : Int) = db.maxHistory + 1 := by
    rw [(hS.perm _).length_eq, List.length_append, ← hinv.length_eq]
    simp only [List.length_singleton, Nat.cast_add, Nat.cast_one]
    omega
  have hextra : ((sort (db.sortedCache ++ [msg])).length : Int) - db.maxHistory = 1 := by omega
  have hno : ¬ ((1 : Int) < 0 ∨ ((sort (db.sortedCache ++ [msg])).length : Int) < 1) := by omega
  simp only [messageDB.put, hk, ht, hlen2, hextra]
  rw [if_neg Bool.false_ne_true, if_neg not_false, if_neg hno, mapSet_of_not_has _ _ _ hk]
  rfl

theorem Inv.tooOld_some {db : messageDB} (hinv : Inv db) (msg : message) :
    ∃ b, db.tooOld msg = some b := by
  unfold messageDB.tooOld
  by_cases hge : (db.uuidToMsg.length : Int) ≥ db.maxHistory
  · rw [if_pos hge]
    cases hc : db.sortedCache with
    | nil =>
      have h1 := hinv.length_eq
      have h2 := hinv.cap
      rw [hc] at h1
      simp only [List.length_nil] at h1
      rw [h1] at hge
      simp at hge
      omega
    | cons oldest rest => exact ⟨_, rfl⟩
  · rw [if_neg hge]
    exact ⟨_, rfl⟩

theorem not_has_of_false {db : messageDB} (hinv : Inv db) (msg : message)
    (hk : mapHas db.uuidToMsg msg.UUID = false) : msg.UUID ∉ db.sortedCache.map message.UUID := by
  intro hmem
  have := (hinv.known_iff msg.UUID).2 hmem
  rw [hk] at this
  exact Bool.noConfusion this

theorem inv_room (sort : List message → List message) (hS : SortContract sort)
    (db : messageDB) (msg : message) (hinv : Inv db)
    (hk : mapHas db.uuidToMsg msg.UUID = false)
    (hlen : (db.uuidToMsg.length : Int) < db.maxHistory) :
    Inv ⟨db.maxHistory, (msg.UUID, msg) :: db.uuidToMsg, sort (db.sortedCache ++ [msg])⟩ := by
  have hperm := hS.perm (db.sortedCache ++ [msg])
  refine ⟨hinv.cap, ?_, ?_, ?_, hS.sorted _, ?_⟩
  · intro e he
    rcases List.mem_cons.1 he with h | h
    · rw [h]
    · exact hinv.keyed e h
  · simp only [List.map_cons]
    refine List.Perm.trans ?_ hperm.symm
    refine List.Perm.trans ?_ (List.perm_append_singleton msg db.sortedCache).symm
    exact List.Perm.cons msg hinv.same
  · refine (hperm.map message.UUID).nodup_iff.2 ?_
    rw [List.map_append]
    refine (List.perm_append_singleton _ _).nodup_iff.2 ?_
    exact List.nodup_cons.2 ⟨not_has_of_false hinv msg hk, hinv.nodup⟩
  · simp only
    rw [hperm.length_eq, List.length_append, ← hinv.length_eq]
    simp only [List.length_singleton, Nat.cast_add, Nat.cast_one]
    omega

theorem inv_full (sort : List message → List message) (hS : SortContract sort)
    (db : messageDB) (msg : message) (hinv : Inv db)
    (hk : mapHas db.uuidToMsg msg.UUID = false)
    (hlen : (db.uuidToMsg.length : Int) = db.maxHistory) :
    Inv ⟨db.maxHistory,
          ((sort (db.sortedCache ++ [msg])).take 1).foldl (fun m x => mapDelete m x.UUID)
            ((msg.UUID, msg) :: db.uuidToMsg),
          (sort (db.sortedCache ++ [msg])).drop 1⟩ := by
  have hperm := hS.perm (db.sortedCache ++ [msg])
  have hkeyed : ∀ e ∈ (msg.UUID, msg) :: db.uuidToMsg, e.1 = e.2.UUID := by
    intro e he
    rcases List.mem_cons.1 he with h | h
    · rw [h]
    · exact hinv.keyed e h
  have hsame : (((msg.UUID, msg) :: db.uuidToMsg).map Prod.snd).Perm
      ((sort (db.sortedCache ++ [msg])).take 1 ++ (sort (db.sortedCache ++ [msg])).drop 1) := by
    rw [List.take_append_drop]
    simp only [List.map_cons]
    refine List.Perm.trans ?_ hperm.symm
    refine List.Perm.trans ?_ (List.perm_append_singleton msg db.sortedCache).symm
    exact List.Perm.cons msg hinv.same
  have hnd : ((sort (db.sortedCache ++ [msg])).map message.UUID).Nodup := by
    refine (hperm.map message.UUID).nodup_iff.2 ?_
    rw [List.map_append]
    refine (List.perm_append_singleton _ _).nodup_iff.2 ?_
    exact List.nodup_cons.2 ⟨not_has_of_false hinv msg hk, hinv.nodup⟩
  refine ⟨hinv.cap, evict_keyed _ _ hkeyed, evict_perm _ _ _ hkeyed hsame ?_, ?_, ?_, ?_⟩
  · rw [List.take_append_drop]
    exact hnd
  · exact hnd.sublist ((List.drop_sublist 1 _).map message.UUID)
  · exact List.Pairwise.sublist (List.drop_sublist 1 _) (hS.sorted _)
  · simp only [List.length_drop]
    rw [hperm.length_eq, List.length_append, ← hinv.length_eq]
    simp only [List.length_singleton]
    omega

/-- A call of `put` on a store that meets the invariant returns, and the store
it leaves meets the invariant with the same capacity. -/
theorem put_inv (sort : List message → List message) (hS : SortContract sort)
    (db : messageDB) (msg : message) (hinv : Inv db) :
    ∃ db1, db.put sort msg = some db1 ∧ Inv db1 ∧ db1.maxHistory = db.maxHistory := by
  cases hk : mapHas db.uuidToMsg msg.UUID with
  | true => exact ⟨db, put_known sort db msg hk, hinv, rfl⟩
  | false =>
    obtain ⟨b, hb⟩ := hinv.tooOld_some msg
    cases b with
    | true => exact ⟨db, put_rejected sort db msg hk hb, hinv, rfl⟩
    | false =>
      have hle : (db.uuidToMsg.length : Int) ≤ db.maxHistory := by
        rw [hinv.length_eq]
        exact hinv.bound
      rcases lt_or_eq_of_le hle with hlt | heq
      · exact ⟨_, put_room sort db msg hk hb hlt, inv_room sort hS db msg hinv hk hlt, rfl⟩
      · exact ⟨_, put_full sort hS db msg hinv hk hb heq, inv_full sort hS db msg hinv hk heq, rfl⟩

/-! ## Sequences of calls -/

theorem putAll_inv (sort : List message → List message) (hS : SortContract sort)
    (msgs : List message) (db : messageDB) (hinv : Inv db) :
    ∃ db1, db.putAll sort msgs = some db1 ∧ Inv db1 ∧ db1.maxHistory = db.maxHistory := by
  induction msgs generalizing db with
  | nil => exact ⟨db, rfl, hinv, rfl⟩
  | cons msg rest ih =>
    obtain ⟨db1, h1, hinv1, hcap1⟩ := put_inv sort hS db msg hinv
    obtain ⟨db2, h2, hinv2, hcap2⟩ := ih db1 hinv1
    refine ⟨db2, ?_, hinv2, hcap2.trans hcap1⟩
    simp [messageDB.putAll, h1, h2]

theorem mergeRemoteDB_inv (J : Json) (sort : List message → List message) (hS : SortContract sort)
    (clock : Nat → Int) (db : messageDB) (data : Bytes) (hinv : Inv db) :
    ∃ db1 err, db.mergeRemoteDB J sort clock data = some (db1, err) ∧ Inv db1
      ∧ db1.maxHistory = db.maxHistory := by
  unfold messageDB.mergeRemoteDB
  cases hu : unmarshalExport J clock data with
  | error err => exact ⟨db, some err, rfl, hinv, rfl⟩
  | ok msgs =>
    obtain ⟨db1, h1, hinv1, hcap1⟩ := putAll_inv sort hS msgs db hinv
    exact ⟨db1, none, by simp [h1], hinv1, hcap1⟩

theorem newMessageDB_inv (n : Int) (db : messageDB) (h : newMessageDB n = some db) :
    Inv db ∧ db.maxHistory = n := by
  unfold newMessageDB at h
  by_cases hn : n < 1
  · rw [if_pos hn] at h
    exact Option.noConfusion h
  · rw [if_neg hn] at h
    have hdb : db = ⟨n, [], []⟩ := (Option.some.inj h).symm
    subst hdb
    exact ⟨⟨by simp only; omega, by simp, by simp, by simp, by simp [sortedByTime],
      by simp only [List.length_nil]; omega⟩, rfl⟩

/-- Every reachable store meets the invariant and keeps the capacity it was built with. -/
theorem Reachable.inv {J : Json} {sort : List message → List message} (hS : SortContract sort)
    {n : Int} {db : messageDB} (h : Reachable J sort n db) : Inv db ∧ db.maxHistory = n := by
  induction h with
  | init db h0 => exact newMessageDB_inv n db h0
  | afterPut db msg db1 _ hput ih =>
    obtain ⟨db2, h2, hinv2, hcap2⟩ := put_inv sort hS db msg ih.1
    have : db.put sort msg = some db1 := hput
    rw [h2] at this
    have hdb : db2 = db1 := Option.some.inj this
    subst hdb
    exact ⟨hinv2, hcap2.trans ih.2⟩
  | afterMerge db clock data db1 err _ hm ih =>
    obtain ⟨db2, err2, h2, hinv2, hcap2⟩ := mergeRemoteDB_inv J sort hS clock db data ih.1
    rw [h2] at hm
    have hdb : db2 = db1 := congrArg Prod.fst (Option.some.inj hm)
    subst hdb
    exact ⟨hinv2, hcap2.trans ih.2⟩

/-! ## Insertion sort meets the contract of `sort.Sort`, and is stable -/

theorem insertSorted_perm (x : message) (l : List message) : (insertSorted x l).Perm (x :: l) := by
  induction l with
  | nil => exact List.Perm.refl _
  | cons y ys ih =>
    unfold insertSorted
    by_cases h : byTime.Less x y = true
    · rw [if_pos h]
    · rw [if_neg h]
      exact (List.Perm.cons y ih).trans (List.Perm.swap x y ys)

theorem less_false_iff (x y : message) : byTime.Less x y = false ↔ y.Time ≤ x.Time := by
  simp [byTime.Less, Before]

theorem less_true_iff (x y : message) : byTime.Less x y = true ↔ x.Time < y.Time := by
  simp [byTime.Less, Before]

theorem insertSorted_sorted (x : message) (l : List message) (hl : sortedByTime l) :
    sortedByTime (insertSorted x l) := by
  induction l with
  | nil => simp [insertSorted, sortedByTime]
  | cons y ys ih =>
    unfold sortedByTime at hl ih ⊢
    have hy := (List.pairwise_cons.1 hl).1
    have hys := (List.pairwise_cons.1 hl).2
    unfold insertSorted
    by_cases h : byTime.Less x y = true
    · rw [if_pos h]
      refine List.pairwise_cons.2 ⟨?_, hl⟩
      intro z hz
      rw [less_false_iff]
      rw [less_true_iff] at h
      rcases List.mem_cons.1 hz with hzy | hzys
      · rw [hzy]; omega
      · have := (less_false_iff _ _).1 (hy z hzys)
        omega
    · rw [if_neg h]
      refine List.pairwise_cons.2 ⟨?_, ih hys⟩
      intro z hz
      rcases List.mem_cons.1 ((insertSorted_perm x ys).mem_iff.1 hz) with hzx | hzys
      · rw [hzx]
        rw [less_false_iff]
        have : ¬ x.Time < y.Time := fun hlt => h ((less_true_iff _ _).2 hlt)
        omega
      · exact hy z hzys

theorem insertSorted_filter (x : message) (l : List message) (hl : sortedByTime l) (t : Int) :
    (insertSorted x l).filter (fun z => decide (z.Time = t))
      = (l ++ [x]).filter (fun z => decide (z.Time = t)) := by
  induction l with
  | nil => simp [insertSorted]
  | cons y ys ih =>
    unfold sortedByTime at hl ih
    have hy := (List.pairwise_cons.1 hl).1
    have hys := (List.pairwise_cons.1 hl).2
    unfold insertSorted
    by_cases h : byTime.Less x y = true
    · rw [if_pos h]
      rw [less_true_iff] at h
      by_cases hxt : x.Time = t
      · have hnone : (y :: ys).filter (fun z => decide (z.Time = t)) = [] := by
          rw [List.filter_eq_nil_iff]
          intro z hz
          have hzt : y.Time ≤ z.Time := by
            rcases List.mem_cons.1 hz with hzy | hzys
            · rw [hzy]
            · exact (less_false_iff _ _).1 (hy z hzys)
          have : z.Time ≠ t := by omega
          simpa using this
        rw [List.filter_append, hnone, List.filter_cons, hnone]
        simp [hxt]
      · rw [List.filter_append, List.filter_cons]
        simp [hxt]
    · rw [if_neg h]
      rw [List.cons_append, List.filter_cons, List.filter_cons, ih hys]

theorem foldl_insertSorted (l acc : List message) (hacc : sortedByTime acc) :
    (l.foldl (fun acc x => insertSorted x acc) acc).Perm (acc ++ l)
    ∧ sortedByTime (l.foldl (fun acc x => insertSorted x acc) acc)
    ∧ ∀ t, (l.foldl (fun acc x => insertSorted x acc) acc).filter (fun z => decide (z.Time = t))
        = (acc ++ l).filter (fun z => decide (z.Time = t)) := by
  induction l generalizing acc with
  | nil => simp [hacc]
  | cons x xs ih =>
    obtain ⟨h1, h2, h3⟩ := ih (insertSorted x acc) (insertSorted_sorted x acc hacc)
    refine ⟨?_, h2, ?_⟩
    · rw [List.foldl_cons]
      refine h1.trans ?_
      refine ((insertSorted_perm x acc).append_right xs).trans ?_
      simp only [List.cons_append]
      exact (List.perm_middle).symm
    · intro t
      rw [List.foldl_cons, h3 t, List.filter_append, insertSorted_filter x acc hacc t,
        ← List.filter_append, List.append_assoc]
      rfl

theorem insertionSort_contract : SortContract insertionSort := by
  constructor
  · intro l
    have := (foldl_insertSorted l [] (by simp [sortedByTime])).1
    simpa [insertionSort] using this
  · intro l
    exact (foldl_insertSorted l [] (by simp [sortedByTime])).2.1

theorem reverseSort_contract : SortContract reverseSort := by
  constructor
  · intro l
    exact (insertionSort_contract.perm l.reverse).trans (List.reverse_perm l)
  · intro l
    exact insertionSort_contract.sorted l.reverse

/-! ## The reference codec meets `JsonLaws` -/

theorem refUnframe_six (rest : Bytes) : refUnframe (6 :: rest) false = some ([], rest) := by
  rw [refUnframe.eq_def]
  simp

theorem refUnframe_five (b : UInt8) (rest : Bytes) :
    refUnframe (5 :: b :: rest) false
      = match refUnframe rest false with
        | none => none
        | some (bs, left) => some (b :: bs, left) := by
  rw [refUnframe.eq_def]
  simp only
  rw [if_neg (by decide), if_pos trivial, refUnframe.eq_def]

theorem refUnframe_refFrame (bs rest : Bytes) :
    refUnframe (refFrame bs ++ rest) false = some (bs, rest) := by
  induction bs with
  | nil => exact refUnframe_six rest
  | cons b bs ih =>
    have h : refFrame (b :: bs) ++ rest = 5 :: b :: (refFrame bs ++ rest) := rfl
    rw [h, refUnframe_five, ih]

theorem refUnmarshal_refMarshal (v : jsonFields) :
    refUnmarshal (refMarshal v) = .ok (v.coerce refJson) := by
  have h1 := refUnframe_refFrame (toValidUTF8 v.UUID)
    (refFrame (toValidUTF8 v.Author) ++ refFrame (toValidUTF8 v.Msg))
  have h2 := refUnframe_refFrame (toValidUTF8 v.Author) (refFrame (toValidUTF8 v.Msg))
  have h3 := refUnframe_refFrame (toValidUTF8 v.Msg) []
  rw [List.append_nil] at h3
  unfold refUnmarshal refMarshal
  rw [h1]
  simp only
  rw [h2]
  simp only
  rw [h3]
  rfl

theorem refSplit_six (tail cur : Bytes) :
    refSplit (6 :: tail) cur false
      = match refSplit tail [] false with
        | .error err => .error err
        | .ok elems => .ok (cur :: elems) := by
  rw [refSplit.eq_def]
  simp

theorem refSplit_five (x : UInt8) (tail cur : Bytes) :
    refSplit (5 :: x :: tail) cur false = refSplit tail (cur ++ [x]) false := by
  rw [refSplit.eq_def]
  simp only
  rw [if_neg (by decide), if_neg (by decide), if_pos trivial, refSplit.eq_def]

theorem refSplit_seven : refSplit [7] [] false = .ok [] := by
  rw [refSplit.eq_def]
  simp

theorem refSplit_refFrame (e tail cur : Bytes) :
    refSplit (refFrame e ++ tail) cur false
      = match refSplit tail [] false with
        | .error err => .error err
        | .ok elems => .ok ((cur ++ e) :: elems) := by
  induction e generalizing cur with
  | nil =>
    have h : refFrame [] ++ tail = 6 :: tail := rfl
    rw [h, refSplit_six, List.append_nil]
  | cons b bs ih =>
    have h : refFrame (b :: bs) ++ tail = 5 :: b :: (refFrame bs ++ tail) := rfl
    rw [h, refSplit_five, ih, List.append_assoc]
    rfl

theorem refSplit_refMarshalExport (vs : List jsonFields) :
    refSplit (refMarshalExport vs) [] false = .ok (vs.map refMarshal) := by
  induction vs with
  | nil => exact refSplit_seven
  | cons v vs ih =>
    have h : refMarshalExport (v :: vs) = refFrame (refMarshal v) ++ refMarshalExport vs := rfl
    rw [h, refSplit_refFrame, ih]
    rfl

theorem refJson_laws : JsonLaws refJson :=
  ⟨refUnmarshal_refMarshal, refSplit_refMarshalExport⟩

/-! ## The scenario store is reachable -/

theorem exStore_reachable : Reachable refJson insertionSort 2 exStore := by
  have h0 : Reachable refJson insertionSort 2 ⟨2, [], []⟩ := Reachable.init _ (by decide)
  have h1 := Reachable.afterPut _ exM1 ⟨2, [(ascii "m1", exM1)], [exM1]⟩ h0 (by decide)
  have h2 := Reachable.afterPut _ exM2 ⟨2, [(ascii "m2", exM2), (ascii "m1", exM1)], [exM1, exM2]⟩ h1 (by decide)
  exact Reachable.afterPut _ exM3 exStore h2 (by decide)

/-! ## The claims -/

/-- C1, capacity invariant: in every store reached from `newMessageDB n` by calls
of `Put` and `mergeRemoteDB`, the map has one entry per key, the map and the
slice have the same number of entries, and this number is at most `maxHistory`,
which is still `n ≥ 1`. -/
theorem C1_capacity_invariant (J : Json) (sort : List message → List message)
    (hS : SortContract sort) (n : Int) (db : messageDB) (h : Reachable J sort n db) :
    (db.uuidToMsg.map Prod.fst).Nodup
      ∧ db.uuidToMsg.length = db.sortedCache.length
      ∧ (db.sortedCache.length : Int) ≤ db.maxHistory ∧ db.maxHistory = n ∧ 1 ≤ n := by
  obtain ⟨hinv, hcap⟩ := h.inv hS
  refine ⟨?_, hinv.length_eq, hinv.bound, hcap, hcap ▸ hinv.cap⟩
  rw [keys_eq_of_keyed _ hinv.keyed]
  exact ((hinv.same.map message.UUID).nodup_iff).2 hinv.nodup

theorem C1_capacity_invariant_witness :
    SortContract insertionSort ∧ Reachable refJson insertionSort 2 exStore
      ∧ ((exStore.uuidToMsg.map Prod.fst).Nodup
        ∧ exStore.uuidToMsg.length = exStore.sortedCache.length
        ∧ (exStore.sortedCache.length : Int) ≤ exStore.maxHistory ∧ exStore.maxHistory = 2
        ∧ (1 : Int) ≤ 2) :=
  ⟨insertionSort_contract, exStore_reachable,
    C1_capacity_invariant refJson insertionSort insertionSort_contract 2 exStore exStore_reachable⟩

/-- C4, sortedness invariant: in every reachable store the slice returned by
`Messages()` is in ascending order of `Time`: no element is before one that precedes it. -/
theorem C4_sorted_invariant (J : Json) (sort : List message → List message)
    (hS : SortContract sort) (n : Int) (db : messageDB) (h : Reachable J sort n db) :
    db.Messages.Pairwise (fun x y => Before y.Time x.Time = false) :=
  (h.inv hS).1.sorted

theorem C4_sorted_invariant_witness :
    SortContract insertionSort ∧ Reachable refJson insertionSort 2 exStore
      ∧ exStore.Messages.Pairwise (fun x y => Before y.Time x.Time = false) :=
  ⟨insertionSort_contract, exStore_reachable,
    C4_sorted_invariant refJson insertionSort insertionSort_contract 2 exStore exStore_reachable⟩

/-- C9, too-old rejection: on a reachable store that holds `maxHistory` messages,
`put` of a message with an unknown UUID whose `Time` is before that of every
retained message returns without a panic and leaves the map and the slice as they were. -/
theorem C9_too_old_rejected (J : Json) (sort : List message → List message)
    (hS : SortContract sort) (n : Int) (db : messageDB) (msg : message)
    (h : Reachable J sort n db) (hfull : (db.sortedCache.length : Int) = db.maxHistory)
    (hnew : mapHas db.uuidToMsg msg.UUID = false)
    (hold : ∀ x ∈ db.sortedCache, Before msg.Time x.Time = true) :
    db.put sort msg = some db := by
  obtain ⟨hinv, _⟩ := h.inv hS
  apply put_rejected sort db msg hnew
  unfold messageDB.tooOld
  have hge : (db.uuidToMsg.length : Int) ≥ db.maxHistory := by
    rw [hinv.length_eq, hfull]
  rw [if_pos hge]
  cases hc : db.sortedCache with
  | nil =>
    have := hinv.cap
    rw [hc] at hfull
    simp only [List.length_nil] at hfull
    omega
  | cons oldest rest =>
    have := hold oldest (by rw [hc]; exact List.mem_cons_self _ _)
    simp [this]

theorem C9_too_old_rejected_witness :
    SortContract insertionSort ∧ Reachable refJson insertionSort 2 exStore
      ∧ (exStore.sortedCache.length : Int) = exStore.maxHistory
      ∧ mapHas exStore.uuidToMsg exM0.UUID = false
      ∧ (∀ x ∈ exStore.sortedCache, Before exM0.Time x.Time = true)
      ∧ exStore.put insertionSort exM0 = some exStore :=
  ⟨insertionSort_contract, exStore_reachable, by decide, by decide, by decide,
    C9_too_old_rejected refJson insertionSort insertionSort_contract 2 exStore exM0
      exStore_reachable (by decide) (by decide) (by decide)⟩

/-- C10, `put` is total: `newMessageDB n` builds a store only for `n ≥ 1`, and on
every reachable store and for every message the read of `sortedCache[0]` is in
range, the slice bound `extra` lies between `0` and the length of the slice
whenever the eviction branch is taken, and `put` returns. -/
theorem C10_put_total (J : Json) (sort : List message → List message)
    (hS : SortContract sort) (n : Int) (db : messageDB) (msg : message)
    (h : Reachable J sort n db) :
    1 ≤ n
      ∧ (∃ b, db.tooOld msg = some b)
      ∧ (¬ ((mapSet db.uuidToMsg msg.UUID msg).length : Int) ≤ db.maxHistory →
          mapHas db.uuidToMsg msg.UUID = false →
          0 ≤ ((sort (db.sortedCache ++ [msg])).length : Int) - db.maxHistory
          ∧ ((sort (db.sortedCache ++ [msg])).length : Int) - db.maxHistory
              ≤ (sort (db.sortedCache ++ [msg])).length)
      ∧ ∃ db1, db.put sort msg = some db1 := by
  obtain ⟨hinv, hcap⟩ := h.inv hS
  refine ⟨hcap ▸ hinv.cap, hinv.tooOld_some msg, ?_, ?_⟩
  · intro hover hk
    rw [mapSet_of_not_has _ _ _ hk] at hover
    have hlen : ((sort (db.sortedCache ++ [msg])).length : Int) = db.sortedCache.length + 1 := by
      rw [(hS.perm _).length_eq]
      simp
    have h1 := hinv.length_eq
    have h2 := hinv.cap
    simp only [List.length_cons, Nat.cast_add, Nat.cast_one] at hover
    omega
  · obtain ⟨db1, h1, _, _⟩ := put_inv sort hS db msg hinv
    exact ⟨db1, h1⟩

theorem C10_put_total_witness :
    SortContract insertionSort ∧ Reachable refJson insertionSort 2 exStore
      ∧ ((1 : Int) ≤ 2
      ∧ (∃ b, exStore.tooOld exM4 = some b)
      ∧ (¬ ((mapSet exStore.uuidToMsg exM4.UUID exM4).length : Int) ≤ exStore.maxHistory →
          mapHas exStore.uuidToMsg exM4.UUID = false →
          0 ≤ ((insertionSort (exStore.sortedCache ++ [exM4])).length : Int) - exStore.maxHistory
          ∧ ((insertionSort (exStore.sortedCache ++ [exM4])).length : Int) - exStore.maxHistory
              ≤ (insertionSort (exStore.sortedCache ++ [exM4])).length)
      ∧ ∃ db1, exStore.put insertionSort exM4 = some db1) :=
  ⟨insertionSort_contract, exStore_reachable,
    C10_put_total refJson insertionSort insertionSort_contract 2 exStore exM4 exStore_reachable⟩

theorem Invalidates_eq (J : Json) (now : Int) (bdcst b : chatMsg) :
    chatMsg.Invalidates J now bdcst b
      = match J.Unmarshal b.data with
        | .error _ => false
        | .ok v => decide (v.UUID = bdcst.message.UUID) := by
  unfold chatMsg.Invalidates message.Decode message.UnmarshalJSON chatMsg.Message
  cases J.Unmarshal b.data <;> rfl

theorem Invalidates_broadcasts (J : Json) (hJ : JsonLaws J) (now : Int) (X Y : message) :
    chatMsg.Invalidates J now (newChatBroadcast J X) (newChatBroadcast J Y) = true
      ↔ J.Coerce Y.UUID = X.UUID := by
  rw [Invalidates_eq]
  simp [newChatBroadcast, message.Encode, hJ.roundtrip, message.fields, jsonFields.coerce]

/-- C7 as amended, broadcast invalidation: a broadcast of a message whose UUID
is valid UTF-8 (JSON carries it unchanged) invalidates a broadcast of the same
message; it does not invalidate a broadcast of a message with another valid
UTF-8 UUID; in general the broadcast of `X` invalidates the broadcast of `Y`
exactly when the UUID of `Y`, as JSON carries it, is the UUID of `X`; when the
payload of the other broadcast fails to decode the result is `false` (a plain
boolean, there is no error result); and the result is `true` exactly when the
payload decodes and the decoded UUID is the receiver's UUID. -/
theorem C7_broadcast_invalidation (J : Json) (hJ : JsonLaws J) (now : Int)
    (A B : message) (bdcst b c : chatMsg)
    (hA : J.Coerce A.UUID = A.UUID) (hB : J.Coerce B.UUID = B.UUID) (hne : A.UUID ≠ B.UUID)
    (herr : (message.Decode J now message.zero b.Message).2 ≠ none) :
    chatMsg.Invalidates J now (newChatBroadcast J A) (newChatBroadcast J A) = true
      ∧ chatMsg.Invalidates J now (newChatBroadcast J A) (newChatBroadcast J B) = false
      ∧ chatMsg.Invalidates J now bdcst b = false
      ∧ (chatMsg.Invalidates J now bdcst c = true ↔
          (message.Decode J now message.zero c.Message).2 = none
          ∧ (message.Decode J now message.zero c.Message).1.UUID = bdcst.message.UUID)
      ∧ (∀ X Y : message,
          chatMsg.Invalidates J now (newChatBroadcast J X) (newChatBroadcast J Y) = true
            ↔ J.Coerce Y.UUID = X.UUID) := by
  refine ⟨?_, ?_, ?_, ?_, Invalidates_broadcasts J hJ now⟩
  · exact (Invalidates_broadcasts J hJ now A A).2 hA
  · cases hi : chatMsg.Invalidates J now (newChatBroadcast J A) (newChatBroadcast J B) with
    | false => rfl
    | true =>
      have := (Invalidates_broadcasts J hJ now A B).1 hi
      rw [hB] at this
      exact absurd this.symm hne
  · rw [Invalidates_eq]
    unfold message.Decode message.UnmarshalJSON chatMsg.Message at herr
    cases hu : J.Unmarshal b.data with
    | error e => rfl
    | ok v => rw [hu] at herr; exact absurd rfl herr
  · rw [Invalidates_eq]
    unfold message.Decode message.UnmarshalJSON chatMsg.Message
    cases hu : J.Unmarshal c.data with
    | error e => simp
    | ok v => simp

theorem C7_broadcast_invalidation_witness :
    JsonLaws refJson
      ∧ refJson.Coerce exM1.UUID = exM1.UUID ∧ refJson.Coerce exM2.UUID = exM2.UUID
      ∧ exM1.UUID ≠ exM2.UUID
      ∧ (message.Decode refJson 7 message.zero exCorrupted.Message).2 ≠ none
      ∧ (chatMsg.Invalidates refJson 7 (newChatBroadcast refJson exM1) (newChatBroadcast refJson exM1)
          = true
      ∧ chatMsg.Invalidates refJson 7 (newChatBroadcast refJson exM1) (newChatBroadcast refJson exM2)
          = false
      ∧ chatMsg.Invalidates refJson 7 (newChatBroadcast refJson exM2) exCorrupted = false
      ∧ (chatMsg.Invalidates refJson 7 (newChatBroadcast refJson exM2) (newChatBroadcast refJson exM3)
            = true ↔
          (message.Decode refJson 7 message.zero (newChatBroadcast refJson exM3).Message).2 = none
          ∧ (message.Decode refJson 7 message.zero (newChatBroadcast refJson exM3).Message).1.UUID
              = (newChatBroadcast refJson exM2).message.UUID)
      ∧ (∀ X Y : message,
          chatMsg.Invalidates refJson 7 (newChatBroadcast refJson X) (newChatBroadcast refJson Y)
              = true
            ↔ refJson.Coerce Y.UUID = X.UUID)) :=
  ⟨refJson_laws, by decide, by decide, by decide, by decide,
    C7_broadcast_invalidation refJson refJson_laws 7 exM1 exM2 (newChatBroadcast refJson exM2)
      exCorrupted (newChatBroadcast refJson exM3) (by decide) (by decide) (by decide) (by decide)⟩

/-- C7 as stated fails: the UUID of `exBadId` ends with the byte `FF`, which
is not valid UTF-8, so its payload carries U+FFFD in its place and the decoded
UUID differs from the UUID of the receiver: the broadcast of `exBadId` does not
invalidate itself.  And `exFffdId`, whose UUID is a different string, is
invalidated by it. -/
theorem C7_counterexample :
    chatMsg.Invalidates refJson 7 (newChatBroadcast refJson exBadId) (newChatBroadcast refJson exBadId)
        = false
      ∧ (message.Decode refJson 7 message.zero (newChatBroadcast refJson exBadId).Message).1.UUID
          = ascii "id-" ++ [0xEF, 0xBF, 0xBD]
      ∧ exFffdId.UUID ≠ exBadId.UUID
      ∧ chatMsg.Invalidates refJson 7 (newChatBroadcast refJson exFffdId)
          (newChatBroadcast refJson exBadId) = true :=
  ⟨by decide, by decide, by decide, by decide⟩

/-! ## Slices that `sort.Sort` leaves as they are -/

theorem filter_time_cons_ne (a : message) (l : List message) (t : Int) (h : a.Time ≠ t) :
    (a :: l).filter (fun z => decide (z.Time = t)) = l.filter (fun z => decide (z.Time = t)) := by
  rw [List.filter_cons]
  simp [h]

theorem filter_time_cons_eq (a : message) (l : List message) :
    (a :: l).filter (fun z => decide (z.Time = a.Time))
      = a :: l.filter (fun z => decide (z.Time = a.Time)) := by
  rw [List.filter_cons]
  simp

theorem mem_filter_time (a : message) (l : List message) (h : a ∈ l) :
    a ∈ l.filter (fun z => decide (z.Time = a.Time)) := by
  rw [List.mem_filter]
  exact ⟨h, by simp⟩

/-- Two slices sorted by time that agree on the messages of each instant, in order, are equal. -/
theorem eq_of_sorted_of_filter_eq (l1 : List message) :
    ∀ l2 : List message, sortedByTime l1 → sortedByTime l2 →
      (∀ t, l1.filter (fun z => decide (z.Time = t)) = l2.filter (fun z => decide (z.Time = t))) →
      l1 = l2 := by
  induction l1 with
  | nil =>
    intro l2 _ _ hf
    cases l2 with
    | nil => rfl
    | cons b l2 =>
      have := hf b.Time
      rw [filter_time_cons_eq] at this
      simp at this
  | cons a l1 ih =>
    intro l2 hs1 hs2 hf
    cases l2 with
    | nil =>
      have := hf a.Time
      rw [filter_time_cons_eq] at this
      simp at this
    | cons b l2 =>
      unfold sortedByTime at hs1 hs2
      have ha := (List.pairwise_cons.1 hs1).1
      have hb := (List.pairwise_cons.1 hs2).1
      have hamem : a ∈ b :: l2 := by
        have h1 := mem_filter_time a (a :: l1) (List.mem_cons_self _ _)
        rw [hf a.Time] at h1
        exact List.mem_of_mem_filter h1
      have hbmem : b ∈ a :: l1 := by
        have h1 := mem_filter_time b (b :: l2) (List.mem_cons_self _ _)
        rw [← hf b.Time] at h1
        exact List.mem_of_mem_filter h1
      have hle1 : b.Time ≤ a.Time := by
        rcases List.mem_cons.1 hamem with h | h
        · rw [h]
        · exact (less_false_iff _ _).1 (hb a h)
      have hle2 : a.Time ≤ b.Time := by
        rcases List.mem_cons.1 hbmem with h | h
        · rw [h]
        · exact (less_false_iff _ _).1 (ha b h)
      have ht : b.Time = a.Time := le_antisymm hle1 hle2
      have hhead := hf a.Time
      rw [filter_time_cons_eq] at hhead
      have hb2 : (b :: l2).filter (fun z => decide (z.Time = a.Time))
          = b :: l2.filter (fun z => decide (z.Time = a.Time)) := by
        rw [← ht]
        exact filter_time_cons_eq b l2
      rw [hb2] at hhead
      have hab : a = b := (List.cons.inj hhead).1
      have htail := (List.cons.inj hhead).2
      subst hab
      congr 1
      apply ih l2 (List.pairwise_cons.1 hs1).2 (List.pairwise_cons.1 hs2).2
      intro t
      by_cases hat : a.Time = t
      · rw [← hat]
        exact htail
      · have := hf t
        rw [filter_time_cons_ne a l1 t hat, filter_time_cons_ne a l2 t hat] at this
        exact this

/-- The messages of a slice are in strictly ascending order of `Time`. -/
theorem sorted_of_strict (l : List message)
    (h : l.Pairwise (fun x y => Before x.Time y.Time = true)) : sortedByTime l := by
  unfold sortedByTime
  refine h.imp ?_
  intro x y hxy
  rw [less_false_iff]
  simp only [Before, decide_eq_true_eq] at hxy
  omega

theorem filter_time_length_le_one (l : List message)
    (h : l.Pairwise (fun x y => Before x.Time y.Time = true)) (t : Int) :
    (l.filter (fun z => decide (z.Time = t))).length ≤ 1 := by
  induction l with
  | nil => simp
  | cons a l ih =>
    have ha := (List.pairwise_cons.1 h).1
    have hl := (List.pairwise_cons.1 h).2
    by_cases hat : a.Time = t
    · have hnone : l.filter (fun z => decide (z.Time = t)) = [] := by
        rw [List.filter_eq_nil_iff]
        intro z hz
        have := ha z hz
        simp only [Before, decide_eq_true_eq] at this
        have : z.Time ≠ t := by omega
        simpa using this
      rw [List.filter_cons, hnone]
      simp [hat]
    · rw [filter_time_cons_ne a l t hat]
      exact ih hl

theorem perm_eq_of_length_le_one {l1 l2 : List message} (hp : l1.Perm l2) (h : l2.length ≤ 1) :
    l1 = l2 := by
  cases l2 with
  | nil => exact List.Perm.eq_nil hp
  | cons a l2 =>
    cases l2 with
    | nil => exact List.perm_singleton.1 hp
    | cons b l2 => simp at h

/-- A slice in strictly ascending order of `Time` is left as it is by `sort.Sort`. -/
theorem sort_eq_self_of_strict (sort : List message → List message) (hS : SortContract sort)
    (l : List message) (h : l.Pairwise (fun x y => Before x.Time y.Time = true)) : sort l = l := by
  apply eq_of_sorted_of_filter_eq _ _ (hS.sorted l) (sorted_of_strict l h)
  intro t
  exact perm_eq_of_length_le_one ((hS.perm l).filter _) (filter_time_length_le_one l h t)

/-- A sorted slice is left as it is by a stable `sort.Sort`. -/
theorem sort_eq_self_of_stable (sort : List message → List message) (hS : SortContract sort)
    (hst : StableSort sort) (l : List message) (h : sortedByTime l) : sort l = l :=
  eq_of_sorted_of_filter_eq _ _ (hS.sorted l) h (hst l)

/-! ## Putting messages that arrive in ascending order of time -/

theorem putAll_cons (sort : List message → List message) (db db1 : messageDB) (msg : message)
    (rest : List message) (h : db.put sort msg = some db1) :
    db.putAll sort (msg :: rest) = db1.putAll sort rest := by
  simp [messageDB.putAll, h]

theorem tooOld_false_of_sorted (db : messageDB) (msg : message) (rest : List message)
    (hinv : Inv db) (hs : sortedByTime (db.sortedCache ++ msg :: rest)) :
    db.tooOld msg = some false := by
  unfold messageDB.tooOld
  by_cases hge : (db.uuidToMsg.length : Int) ≥ db.maxHistory
  · rw [if_pos hge]
    cases hc : db.sortedCache with
    | nil =>
      have h1 := hinv.length_eq
      have h2 := hinv.cap
      rw [hc] at h1
      simp only [List.length_nil] at h1
      rw [h1] at hge
      simp at hge
      omega
    | cons oldest more =>
      rw [hc] at hs
      unfold sortedByTime at hs
      have := (List.pairwise_cons.1 hs).1 msg (by simp)
      simp only [byTime.Less] at this
      simp [this]
  · rw [if_neg hge]

/-- Messages with fresh UUIDs put in ascending order of time, each one sorted
to the end of the slice: the store ends with the most recent `maxHistory` of
the messages it held and received, in that order. -/
theorem putAll_ascending (sort : List message → List message) (hS : SortContract sort)
    (ms : List message) :
    ∀ db : messageDB, Inv db →
      (∀ q, q.Sublist (db.sortedCache ++ ms) → sort q = q) →
      sortedByTime (db.sortedCache ++ ms) →
      ((db.sortedCache ++ ms).map message.UUID).Nodup →
      ∃ db1, db.putAll sort ms = some db1 ∧ Inv db1 ∧ db1.maxHistory = db.maxHistory
        ∧ db1.sortedCache
            = (db.sortedCache ++ ms).drop ((db.sortedCache ++ ms).length - db.maxHistory.toNat) := by
  induction ms with
  | nil =>
    intro db hinv _ _ _
    refine ⟨db, rfl, hinv, rfl, ?_⟩
    have hb := hinv.bound
    have hz : (db.sortedCache ++ []).length - db.maxHistory.toNat = 0 := by
      simp only [List.append_nil]
      omega
    rw [hz]
    simp
  | cons m ms ih =>
    intro db hinv hfix hs hnd
    have hk : mapHas db.uuidToMsg m.UUID = false := by
      cases hh : mapHas db.uuidToMsg m.UUID with
      | false => rfl
      | true =>
        have hmem := (hinv.known_iff m.UUID).1 hh
        rw [List.map_append] at hnd
        exact absurd (List.mem_map_of_mem message.UUID (List.mem_cons_self m ms))
          (List.disjoint_of_nodup_append hnd hmem)
    have ht := tooOld_false_of_sorted db m ms hinv hs
    have hsub : (db.sortedCache ++ [m]).Sublist (db.sortedCache ++ m :: ms) :=
      List.Sublist.append (List.Sublist.refl _)
        (List.singleton_sublist.2 (List.mem_cons_self m ms))
    have hsort : sort (db.sortedCache ++ [m]) = db.sortedCache ++ [m] := hfix _ hsub
    have hle : (db.uuidToMsg.length : Int) ≤ db.maxHistory := by
      rw [hinv.length_eq]
      exact hinv.bound
    have hassoc : db.sortedCache ++ m :: ms = (db.sortedCache ++ [m]) ++ ms := by simp
    rcases lt_or_eq_of_le hle with hlt | heq
    · have hput := put_room sort db m hk ht hlt
      have hinv1 := inv_room sort hS db m hinv hk hlt
      rw [hsort] at hput hinv1
      obtain ⟨db2, h2, hinv2, hcap2, hcache2⟩ := ih _ hinv1
        (by simpa only [← hassoc] using hfix) (by simpa only [← hassoc] using hs)
        (by simpa only [← hassoc] using hnd)
      refine ⟨db2, (putAll_cons sort db _ m ms hput).trans h2, hinv2, hcap2, ?_⟩
      rw [hcache2]
      simp only [← hassoc]
    · have hput := put_full sort hS db m hinv hk ht heq
      have hinv1 := inv_full sort hS db m hinv hk heq
      rw [hsort] at hput hinv1
      have hcap := hinv.cap
      have hlen := hinv.length_eq
      cases hc : db.sortedCache with
      | nil =>
        rw [hc] at hlen
        simp only [List.length_nil] at hlen
        omega
      | cons a c =>
        rw [hc] at hput hinv1 hfix hs hnd hlen
        have hdrop : (a :: c ++ [m]).drop 1 = c ++ [m] := rfl
        rw [hdrop] at hput hinv1
        have hassoc2 : c ++ m :: ms = (c ++ [m]) ++ ms := by simp
        have htail : (c ++ m :: ms).Sublist (a :: c ++ m :: ms) :=
          List.sublist_cons_self a _
        obtain ⟨db2, h2, hinv2, hcap2, hcache2⟩ := ih _ hinv1
          (by
            intro q hq
            simp only [← hassoc2] at hq
            exact hfix q (hq.trans htail))
          (by
            simp only [← hassoc2]
            exact List.Pairwise.sublist htail hs)
          (by
            simp only [← hassoc2]
            exact hnd.sublist (htail.map message.UUID))
        refine ⟨db2, (putAll_cons sort db _ m ms hput).trans h2, hinv2, hcap2, ?_⟩
        rw [hcache2]
        simp only [← hassoc2, List.cons_append, List.length_cons, List.length_append]
        have e1 : c.length + (ms.length + 1) + 1 - db.maxHistory.toNat
            = (c.length + (ms.length + 1) - db.maxHistory.toNat) + 1 := by
          simp only [List.length_cons] at hlen
          omega
        rw [e1, List.drop_succ_cons]

theorem foldlM_Put (sort : List message → List message) (ms : List message) :
    ∀ db : messageDB, ms.foldlM (fun d m => d.Put sort m) db = db.putAll sort ms := by
  induction ms with
  | nil => intro db; rfl
  | cons m ms ih =>
    intro db
    rw [List.foldlM_cons]
    unfold messageDB.Put
    cases hp : db.put sort m with
    | none => simp [messageDB.putAll, hp]
    | some db1 =>
      rw [putAll_cons sort db db1 m ms hp]
      exact ih db1

/-- C3, eviction correctness: for a capacity `N ≥ 1`, calling `Put` on `N + k`
messages with pairwise distinct UUIDs and strictly increasing `Time`, in that
order, starting from `newMessageDB N`, returns each time and leaves a store whose
`Messages()` is the list of the last `N` of them, in the order they were put. -/
theorem C3_eviction_correct (sort : List message → List message) (hS : SortContract sort)
    (N : Int) (hN : 1 ≤ N) (k : Nat) (ms : List message)
    (hlen : (ms.length : Int) = N + k)
    (htime : ms.Pairwise (fun x y => Before x.Time y.Time = true))
    (huuid : (ms.map message.UUID).Nodup) :
    ∃ db0 db, newMessageDB N = some db0
      ∧ ms.foldlM (fun d m => d.Put sort m) db0 = some db
      ∧ db.Messages = ms.drop k ∧ (db.Messages.length : Int) = N := by
  have h0 : newMessageDB N = some ⟨N, [], []⟩ := by
    unfold newMessageDB
    rw [if_neg (by omega)]
  have hinv0 := (newMessageDB_inv N _ h0).1
  obtain ⟨db, h1, _, _, hcache⟩ := putAll_ascending sort hS ms ⟨N, [], []⟩ hinv0
    (by
      intro q hq
      exact sort_eq_self_of_strict sort hS q (List.Pairwise.sublist hq htime))
    (sorted_of_strict _ htime) huuid
  simp only [List.nil_append] at hcache
  have hk : ms.length - N.toNat = k := by omega
  rw [hk] at hcache
  refine ⟨_, db, h0, (foldlM_Put sort ms _).trans h1, hcache, ?_⟩
  unfold messageDB.Messages
  rw [hcache, List.length_drop]
  omega

theorem C3_eviction_correct_witness :
    SortContract insertionSort ∧ (1 : Int) ≤ 2
      ∧ (([exM1, exM2, exM3].length : Nat) : Int) = 2 + (1 : Nat)
      ∧ [exM1, exM2, exM3].Pairwise (fun x y => Before x.Time y.Time = true)
      ∧ ([exM1, exM2, exM3].map message.UUID).Nodup
      ∧ ∃ db0 db, newMessageDB 2 = some db0
          ∧ [exM1, exM2, exM3].foldlM (fun d m => d.Put insertionSort m) db0 = some db
          ∧ db.Messages = [exM1, exM2, exM3].drop 1 ∧ (db.Messages.length : Int) = 2 :=
  ⟨insertionSort_contract, by decide, by decide, by decide, by decide,
    C3_eviction_correct insertionSort insertionSort_contract 2 (by decide) 1 [exM1, exM2, exM3]
      (by decide) (by decide) (by decide)⟩

/-! ## Which message a full store evicts -/

/-- On a full store the message evicted after an insertion carries the `Time` of
the oldest retained message. -/
theorem evicted_time (sort : List message → List message) (hS : SortContract sort)
    (a : message) (c : List message) (m h : message) (s : List message)
    (hc : sortedByTime (a :: c)) (hm : a.Time ≤ m.Time)
    (hs : sort (a :: c ++ [m]) = h :: s) : h.Time = a.Time := by
  have hperm := hS.perm (a :: c ++ [m])
  have hsorted := hS.sorted (a :: c ++ [m])
  rw [hs] at hperm hsorted
  unfold sortedByTime at hc hsorted
  have hamem : a ∈ h :: s := hperm.mem_iff.2 (by simp)
  have hhmem : h ∈ a :: c ++ [m] := hperm.mem_iff.1 (List.mem_cons_self _ _)
  have h1 : h.Time ≤ a.Time := by
    rcases List.mem_cons.1 hamem with e | e
    · rw [e]
    · exact (less_false_iff _ _).1 ((List.pairwise_cons.1 hsorted).1 a e)
  have h2 : a.Time ≤ h.Time := by
    rcases List.mem_append.1 hhmem with e | e
    · rcases List.mem_cons.1 e with e1 | e1
      · rw [e1]
      · exact (less_false_iff _ _).1 ((List.pairwise_cons.1 hc).1 h e1)
    · rw [List.mem_singleton.1 e]
      exact hm
  exact le_antisymm h1 h2

/-- A stable `sort.Sort` on a full store evicts the oldest retained message. -/
theorem evicted_of_stable (sort : List message → List message) (hS : SortContract sort)
    (hst : StableSort sort) (a : message) (c : List message) (m h : message) (s : List message)
    (hc : sortedByTime (a :: c)) (hm : a.Time ≤ m.Time)
    (hs : sort (a :: c ++ [m]) = h :: s) : h = a := by
  have ht := evicted_time sort hS a c m h s hc hm hs
  have hf := hst (a :: c ++ [m]) a.Time
  rw [hs, List.cons_append, filter_time_cons_eq, ← ht, filter_time_cons_eq] at hf
  exact (List.cons.inj hf).1

/-- A call of `put` either leaves the store as it was, or leaves a store that
knows the UUID of the message, or evicts the message it has just inserted. -/
theorem put_outcome (sort : List message → List message) (hS : SortContract sort)
    (db : messageDB) (msg : message) (hinv : Inv db) :
    ∃ db1, db.put sort msg = some db1 ∧ Inv db1 ∧
      ((db1 = db ∧ (mapHas db.uuidToMsg msg.UUID = true ∨ db.tooOld msg = some true))
        ∨ mapHas db1.uuidToMsg msg.UUID = true
        ∨ (mapHas db.uuidToMsg msg.UUID = false
            ∧ (db.sortedCache.length : Int) = db.maxHistory
            ∧ ∃ a c s, db.sortedCache = a :: c ∧ a.Time ≤ msg.Time
                ∧ sort (a :: c ++ [msg]) = msg :: s)) := by
  cases hk : mapHas db.uuidToMsg msg.UUID with
  | true => exact ⟨db, put_known sort db msg hk, hinv, Or.inl ⟨rfl, Or.inl rfl⟩⟩
  | false =>
    obtain ⟨b, hb⟩ := hinv.tooOld_some msg
    cases b with
    | true => exact ⟨db, put_rejected sort db msg hk hb, hinv, Or.inl ⟨rfl, Or.inr hb⟩⟩
    | false =>
      have hle : (db.uuidToMsg.length : Int) ≤ db.maxHistory := by
        rw [hinv.length_eq]
        exact hinv.bound
      rcases lt_or_eq_of_le hle with hlt | heq
      · refine ⟨_, put_room sort db msg hk hb hlt, inv_room sort hS db msg hinv hk hlt,
          Or.inr (Or.inl ?_)⟩
        simp [mapHas]
      · have hinv1 := inv_full sort hS db msg hinv hk heq
        refine ⟨_, put_full sort hS db msg hinv hk hb heq, hinv1, ?_⟩
        have hperm := hS.perm (db.sortedCache ++ [msg])
        cases hc : db.sortedCache with
        | nil =>
          have h1 := hinv.length_eq
          have h2 := hinv.cap
          rw [hc] at h1
          simp only [List.length_nil] at h1
          omega
        | cons a c =>
          have ham : a.Time ≤ msg.Time := by
            unfold messageDB.tooOld at hb
            rw [if_pos (ge_of_eq heq), hc] at hb
            have hb2 : Before msg.Time a.Time = false := Option.some.inj hb
            simpa [Before] using hb2
          cases hsrt : sort (a :: c ++ [msg]) with
          | nil =>
            have := hperm.length_eq
            rw [hc, hsrt] at this
            simp at this
          | cons h s =>
            have hmem : msg ∈ h :: s := by
              rw [← hsrt, ← hc]
              exact hperm.mem_iff.2 (by simp)
            rw [hc, hsrt] at hinv1
            by_cases hh : h = msg
            · right; right
              refine ⟨rfl, ?_, a, c, s, rfl, ham, hsrt.trans (by rw [hh])⟩
              rw [← heq, hinv.length_eq, hc]
            · right; left
              refine (hinv1.known_iff msg.UUID).2 ?_
              rcases List.mem_cons.1 hmem with e | e
              · exact absurd e.symm hh
              · exact List.mem_map_of_mem message.UUID e

/-- After a call of `put` the slice holds messages it held before, and at most the new one. -/
theorem put_cache (sort : List message → List message) (hS : SortContract sort)
    (db : messageDB) (msg : message) (hinv : Inv db) :
    ∃ db1, db.put sort msg = some db1 ∧ Inv db1 ∧ db1.maxHistory = db.maxHistory
      ∧ (db1 = db ∨ (mapHas db.uuidToMsg msg.UUID = false
          ∧ ∀ x ∈ db1.sortedCache, x ∈ db.sortedCache ∨ x = msg)) := by
  have hmem : ∀ x ∈ sort (db.sortedCache ++ [msg]), x ∈ db.sortedCache ∨ x = msg := by
    intro x hx
    have := (hS.perm _).mem_iff.1 hx
    simpa using this
  cases hk : mapHas db.uuidToMsg msg.UUID with
  | true => exact ⟨db, put_known sort db msg hk, hinv, rfl, Or.inl rfl⟩
  | false =>
    obtain ⟨b, hb⟩ := hinv.tooOld_some msg
    cases b with
    | true => exact ⟨db, put_rejected sort db msg hk hb, hinv, rfl, Or.inl rfl⟩
    | false =>
      have hle : (db.uuidToMsg.length : Int) ≤ db.maxHistory := by
        rw [hinv.length_eq]
        exact hinv.bound
      rcases lt_or_eq_of_le hle with hlt | heq
      · exact ⟨_, put_room sort db msg hk hb hlt, inv_room sort hS db msg hinv hk hlt, rfl,
          Or.inr ⟨rfl, hmem⟩⟩
      · exact ⟨_, put_full sort hS db msg hinv hk hb heq, inv_full sort hS db msg hinv hk heq, rfl,
          Or.inr ⟨rfl, fun x hx => hmem x (List.mem_of_mem_drop hx)⟩⟩

/-- C2 as amended, first-write-wins: on a reachable store, for two messages
`m1`, `m2` with the same UUID, unknown to the store: if the store holds fewer
than `maxHistory` messages, or its oldest message is strictly before `m1`, or
`m1` is not before its oldest message and `sort.Sort` keeps equal elements in
order, then `put(m1)` stores `m1`, in the slice and in the map, and `put(m2)`
leaves the store exactly as `put(m1)` left it: the message held under the UUID
is `m1` with its own fields.  And on any store, `put` of a message whose UUID is
already in `uuidToMsg` leaves the map and the slice as they were. -/
theorem C2_first_write_wins (J : Json) (sort : List message → List message)
    (hS : SortContract sort) (n : Int) (db : messageDB) (m1 m2 : message)
    (h : Reachable J sort n db) (hu : m2.UUID = m1.UUID)
    (hnew : mapHas db.uuidToMsg m1.UUID = false)
    (hroom : (db.sortedCache.length : Int) < db.maxHistory
      ∨ (∃ oldest rest, db.sortedCache = oldest :: rest ∧ Before oldest.Time m1.Time = true)
      ∨ (StableSort sort ∧ db.tooOld m1 = some false)) :
    ∃ db1, db.put sort m1 = some db1
      ∧ m1 ∈ db1.Messages ∧ (m1.UUID, m1) ∈ db1.uuidToMsg
      ∧ (∀ x ∈ db1.Messages, x.UUID = m1.UUID → x = m1)
      ∧ (∀ e ∈ db1.uuidToMsg, e.1 = m1.UUID → e.2 = m1)
      ∧ db1.put sort m2 = some db1
      ∧ (db.put sort m1).bind (fun d => d.put sort m2) = some db1
      ∧ (∀ (d : messageDB) (m : message),
          mapHas d.uuidToMsg m.UUID = true → d.put sort m = some d) := by
  obtain ⟨hinv, _⟩ := h.inv hS
  have ht : db.tooOld m1 = some false := by
    rcases hroom with hlt | ⟨oldest, rest, hc, hbefore⟩ | ⟨_, ht⟩
    · unfold messageDB.tooOld
      rw [if_neg (by rw [hinv.length_eq]; omega)]
    · unfold messageDB.tooOld
      by_cases hge : (db.uuidToMsg.length : Int) ≥ db.maxHistory
      · rw [if_pos hge, hc]
        simp only [Before, decide_eq_true_eq] at hbefore
        have : ¬ m1.Time < oldest.Time := by omega
        simp [Before, this]
      · rw [if_neg hge]
    · exact ht
  obtain ⟨db1, hput, hinv1, hcase⟩ := put_outcome sort hS db m1 hinv
  obtain ⟨db2, hput2, _, _, hcache⟩ := put_cache sort hS db m1 hinv
  have hdb : db2 = db1 := by
    rw [hput] at hput2
    exact (Option.some.inj hput2).symm
  subst hdb
  have hknown1 : mapHas db2.uuidToMsg m1.UUID = true := by
    rcases hcase with ⟨_, hk | hto⟩ | hknown | ⟨_, hfull, a, c, s, hc, ham, hsrt⟩
    · rw [hnew] at hk
      exact Bool.noConfusion hk
    · rw [ht] at hto
      exact absurd (Option.some.inj hto) (by decide)
    · exact hknown
    · exfalso
      have hsc : sortedByTime (a :: c) := hc ▸ hinv.sorted
      rcases hroom with hlt | ⟨oldest, rest, hc2, hbefore⟩ | ⟨hst, _⟩
      · omega
      · have htime := evicted_time sort hS a c m1 m1 s hsc ham hsrt
        rw [hc] at hc2
        have hao : a = oldest := (List.cons.inj hc2).1
        simp only [Before, decide_eq_true_eq] at hbefore
        rw [← hao] at hbefore
        omega
      · have hma := evicted_of_stable sort hS hst a c m1 m1 s hsc ham hsrt
        have hmem : m1.UUID ∈ db.sortedCache.map message.UUID := by
          rw [hc, hma]
          simp
        exact not_has_of_false hinv m1 hnew hmem
  have hall : ∀ x ∈ db2.sortedCache, x.UUID = m1.UUID → x = m1 := by
    intro x hx hxu
    rcases hcache with hsame | ⟨_, hmem⟩
    · rw [hsame, hnew] at hknown1
      exact Bool.noConfusion hknown1
    · rcases hmem x hx with hold | hxm
      · exact absurd (hxu ▸ List.mem_map_of_mem message.UUID hold) (not_has_of_false hinv m1 hnew)
      · exact hxm
  have hmem1 : m1 ∈ db2.sortedCache := by
    obtain ⟨x, hx, hxu⟩ := List.mem_map.1 ((hinv1.known_iff m1.UUID).1 hknown1)
    have := hall x hx hxu
    rw [this] at hx
    exact hx
  have hkey : db2.put sort m2 = some db2 := put_known sort db2 m2 (by rw [hu]; exact hknown1)
  refine ⟨db2, hput, hmem1, ?_, hall, ?_, hkey, ?_, put_known sort⟩
  · obtain ⟨e, he, he2⟩ := List.mem_map.1 (hinv1.same.mem_iff.2 hmem1)
    have he1 : e.1 = m1.UUID := by rw [hinv1.keyed e he, he2]
    have : e = (m1.UUID, m1) := Prod.ext he1 he2
    rw [← this]
    exact he
  · intro e he heu
    have hmem : e.2 ∈ db2.sortedCache :=
      hinv1.same.mem_iff.1 (List.mem_map_of_mem Prod.snd he)
    exact hall e.2 hmem ((hinv1.keyed e he).symm.trans heu)
  · rw [hput]
    exact hkey

theorem C2_first_write_wins_witness :
    SortContract insertionSort ∧ Reachable refJson insertionSort 2 exStore
      ∧ exCopy.UUID = exM4.UUID ∧ exCopy.Author ≠ exM4.Author ∧ exCopy.Msg ≠ exM4.Msg
      ∧ mapHas exStore.uuidToMsg exM4.UUID = false
      ∧ (∃ oldest rest, exStore.sortedCache = oldest :: rest ∧ Before oldest.Time exM4.Time = true)
      ∧ mapHas exStore.uuidToMsg exM2b.UUID = true
      ∧ (∃ db1, exStore.put insertionSort exM4 = some db1
          ∧ exM4 ∈ db1.Messages ∧ (exM4.UUID, exM4) ∈ db1.uuidToMsg
          ∧ (∀ x ∈ db1.Messages, x.UUID = exM4.UUID → x = exM4)
          ∧ (∀ e ∈ db1.uuidToMsg, e.1 = exM4.UUID → e.2 = exM4)
          ∧ db1.put insertionSort exCopy = some db1
          ∧ (exStore.put insertionSort exM4).bind (fun d => d.put insertionSort exCopy) = some db1
          ∧ exStore.put insertionSort exM2b = some exStore) := by
  obtain ⟨db1, h1, h2, h3, h4, h5, h6, h7, h8⟩ :=
    C2_first_write_wins refJson insertionSort insertionSort_contract 2 exStore exM4 exCopy
      exStore_reachable (by decide) (by decide)
      (Or.inr (Or.inl ⟨exM2, [exM3], rfl, by decide⟩))
  exact ⟨insertionSort_contract, exStore_reachable, by decide, by decide, by decide, by decide,
    ⟨exM2, [exM3], rfl, by decide⟩, by decide,
    db1, h1, h2, h3, h4, h5, h6, h7, h8 exStore exM2b (by decide)⟩

/-- C2 as stated fails, in two ways.  The store of capacity 2 holding `M2`, `M3`
rejects `exOld` (timestamp 0) as too old, then stores `exNew` (timestamp 9),
which has the same UUID and another author and text: after
`put(exOld); put(exNew)` the store holds the fields of the second message, not
those of the first.  And when the UUID is already known, as that of `M2` is,
neither `exM2b` nor `exM2c` is stored: the store keeps the fields of `M2`, not
those of `exM2b`. -/
theorem C2_counterexample :
    (Reachable refJson insertionSort 2 exStore
      ∧ exOld.UUID = exNew.UUID ∧ exOld.Author ≠ exNew.Author ∧ exOld.Msg ≠ exNew.Msg
      ∧ ∃ db1 db2, exStore.put insertionSort exOld = some db1
          ∧ db1.put insertionSort exNew = some db2
          ∧ exNew ∈ db2.Messages ∧ exOld ∉ db2.Messages
          ∧ ¬ (∀ x ∈ db2.Messages, x.UUID = exOld.UUID → x.fields = exOld.fields))
    ∧ (exM2b.UUID = exM2c.UUID ∧ exM2b.Author ≠ exM2c.Author ∧ exM2b.Msg ≠ exM2c.Msg
      ∧ ∃ db1 db2, exStore.put insertionSort exM2b = some db1
          ∧ db1.put insertionSort exM2c = some db2
          ∧ exM2 ∈ db2.Messages ∧ exM2b ∉ db2.Messages
          ∧ ¬ (∀ x ∈ db2.Messages, x.UUID = exM2b.UUID → x.fields = exM2b.fields)) :=
  ⟨⟨exStore_reachable, by decide, by decide, by decide,
    exStore, ⟨2, [(ascii "x", exNew), (ascii "m3", exM3)], [exM3, exNew]⟩,
    by decide, by decide, by decide, by decide, by decide⟩,
   ⟨by decide, by decide, by decide,
    exStore, exStore, by decide, by decide, by decide, by decide, by decide⟩⟩

/-! ## Decoding a snapshot -/

theorem decodeElements_marshal (J : Json) (hJ : JsonLaws J) (clock : Nat → Int)
    (vs : List jsonFields) :
    ∀ i, decodeElements J clock i (vs.map J.Marshal)
      = .ok (stamp clock i (vs.map (jsonFields.coerce J))) := by
  induction vs with
  | nil => intro i; rfl
  | cons v vs ih =>
    intro i
    simp only [List.map_cons, decodeElements, message.UnmarshalJSON, hJ.roundtrip, ih, stamp]

theorem unmarshalExport_encode (J : Json) (hJ : JsonLaws J) (clock : Nat → Int) (s : messageDB) :
    unmarshalExport J clock (encodeMessageDB J s)
      = .ok (stamp clock 0 ((s.sortedCache.map message.fields).map (jsonFields.coerce J))) := by
  simp only [unmarshalExport, encodeMessageDB, messageDB.Messages, hJ.roundtripExport,
    decodeElements_marshal J hJ]

/-- The UUIDs of a decoded snapshot are those of the store when JSON carries them unchanged. -/
theorem stamp_uuid_of_valid (J : Json) (clock : Nat → Int) (s : messageDB)
    (hvalid : ∀ m ∈ s.sortedCache, J.Coerce m.UUID = m.UUID) :
    (stamp clock 0 ((s.sortedCache.map message.fields).map (jsonFields.coerce J))).map message.UUID
      = s.sortedCache.map message.UUID := by
  have h1 : ∀ l : List message,
      l.map message.UUID = (l.map message.fields).map jsonFields.UUID := by
    intro l
    rw [List.map_map]
    rfl
  have h2 : ∀ vs i, (stamp clock i vs).map message.fields = vs := by
    intro vs
    induction vs with
    | nil => intro i; rfl
    | cons v vs ih =>
      intro i
      simp only [stamp, List.map_cons, ih, message.fields]
  rw [h1, h2, List.map_map, List.map_map]
  apply List.map_congr_left
  intro m hm
  exact hvalid m hm

theorem stamp_fields (clock : Nat → Int) (vs : List jsonFields) :
    ∀ i, (stamp clock i vs).map message.fields = vs := by
  induction vs with
  | nil => intro i; rfl
  | cons v vs ih =>
    intro i
    simp only [stamp, List.map_cons, ih, message.fields]

theorem uuid_eq_fields_uuid (l : List message) :
    l.map message.UUID = (l.map message.fields).map jsonFields.UUID := by
  rw [List.map_map]
  rfl

theorem stamp_length (clock : Nat → Int) (vs : List jsonFields) (i : Nat) :
    (stamp clock i vs).length = vs.length := by
  have := congrArg List.length (stamp_fields clock vs i)
  simpa using this

theorem stamp_mem (clock : Nat → Int) (vs : List jsonFields) :
    ∀ i, ∀ x ∈ stamp clock i vs, ∃ j, i ≤ j ∧ x.Time = clock j := by
  induction vs with
  | nil => intro i x hx; simp [stamp] at hx
  | cons v vs ih =>
    intro i x hx
    simp only [stamp, List.mem_cons] at hx
    rcases hx with e | e
    · exact ⟨i, le_refl i, by rw [e]⟩
    · obtain ⟨j, hj, hxj⟩ := ih (i + 1) x e
      exact ⟨j, by omega, hxj⟩

theorem stamp_pairwise (clock : Nat → Int) (R : Int → Int → Prop)
    (hR : ∀ i j, i < j → R (clock i) (clock j)) (vs : List jsonFields) :
    ∀ i, (stamp clock i vs).Pairwise (fun x y => R x.Time y.Time) := by
  induction vs with
  | nil => intro i; simp [stamp]
  | cons v vs ih =>
    intro i
    simp only [stamp]
    refine List.pairwise_cons.2 ⟨?_, ih (i + 1)⟩
    intro y hy
    obtain ⟨j, hj, hyj⟩ := stamp_mem clock vs (i + 1) y hy
    rw [hyj]
    exact hR i j (by omega)

theorem putAll_known (sort : List message → List message) (db : messageDB) (ms : List message)
    (h : ∀ m ∈ ms, mapHas db.uuidToMsg m.UUID = true) : db.putAll sort ms = some db := by
  induction ms with
  | nil => rfl
  | cons m ms ih =>
    rw [putAll_cons sort db db m ms (put_known sort db m (h m (List.mem_cons_self _ _)))]
    exact ih (fun x hx => h x (List.mem_cons_of_mem _ hx))

/-- C6 as amended, snapshot round trip: for a reachable store `s`, merging the
encoding of `s` returns no error.  When every UUID held by `s` is valid UTF-8
(JSON carries it unchanged), merging it into `s` itself leaves `s` as it was;
and merging it into a fresh store of capacity `c ≥ s.maxHistory`, when the
readings of `time.Now()` taken while decoding increase strictly, or do not
decrease and `sort.Sort` keeps equal elements in order, leaves a store whose
`Messages()` lists the messages of `s` in the same order, with the same UUIDs
and with author and text as JSON carries them: unchanged when they are valid
UTF-8. -/
theorem C6_snapshot_roundtrip (J : Json) (hJ : JsonLaws J) (sort : List message → List message)
    (hS : SortContract sort) (n : Int) (s : messageDB) (h : Reachable J sort n s)
    (clock : Nat → Int) (c : Int) (hc : s.maxHistory ≤ c) :
    (∃ db1, s.mergeRemoteDB J sort clock (encodeMessageDB J s) = some (db1, none))
      ∧ ((∀ m ∈ s.Messages, J.Coerce m.UUID = m.UUID) →
          s.mergeRemoteDB J sort clock (encodeMessageDB J s) = some (s, none))
      ∧ ((∀ m ∈ s.Messages, J.Coerce m.UUID = m.UUID) →
          ((∀ i j : Nat, i < j → clock i < clock j)
            ∨ (StableSort sort ∧ ∀ i j : Nat, i < j → clock i ≤ clock j)) →
          ∃ fresh db1, newMessageDB c = some fresh
            ∧ fresh.mergeRemoteDB J sort clock (encodeMessageDB J s) = some (db1, none)
            ∧ db1.Messages.map message.fields
                = (s.Messages.map message.fields).map (jsonFields.coerce J)
            ∧ db1.Messages.map message.UUID = s.Messages.map message.UUID
            ∧ ((∀ m ∈ s.Messages, m.fields.coerce J = m.fields) →
                db1.Messages.map message.fields = s.Messages.map message.fields)) := by
  obtain ⟨hinv, _⟩ := h.inv hS
  have hdec := unmarshalExport_encode J hJ clock s
  unfold messageDB.Messages
  refine ⟨?_, ?_, ?_⟩
  · obtain ⟨db1, h1, _, _⟩ := putAll_inv sort hS
      (stamp clock 0 ((s.sortedCache.map message.fields).map (jsonFields.coerce J))) s hinv
    refine ⟨db1, ?_⟩
    unfold messageDB.mergeRemoteDB
    rw [hdec]
    simp only
    rw [h1]
    rfl
  · intro hvalid
    have huuid := stamp_uuid_of_valid J clock s hvalid
    unfold messageDB.mergeRemoteDB
    rw [hdec]
    simp only
    rw [putAll_known sort s _ ?_]
    · rfl
    · intro m hm
      rw [hinv.known_iff, ← huuid]
      exact List.mem_map_of_mem message.UUID hm
  · intro hvalid hclock
    have huuid := stamp_uuid_of_valid J clock s hvalid
    have hlen := stamp_length clock ((s.sortedCache.map message.fields).map (jsonFields.coerce J)) 0
    have hflds := stamp_fields clock ((s.sortedCache.map message.fields).map (jsonFields.coerce J)) 0
    have hstrict := fun hR => stamp_pairwise clock (fun t u => t < u) hR
      ((s.sortedCache.map message.fields).map (jsonFields.coerce J)) 0
    have hmono := fun hR => stamp_pairwise clock (fun t u => t ≤ u) hR
      ((s.sortedCache.map message.fields).map (jsonFields.coerce J)) 0
    generalize stamp clock 0 ((s.sortedCache.map message.fields).map (jsonFields.coerce J)) = M
      at hdec huuid hlen hflds hstrict hmono
    have hc1 : 1 ≤ c := le_trans hinv.cap hc
    have h0 : newMessageDB c = some ⟨c, [], []⟩ := by
      unfold newMessageDB
      rw [if_neg (by omega)]
    have hinv0 := (newMessageDB_inv c _ h0).1
    have hsorted : sortedByTime M := by
      rcases hclock with hs | ⟨_, hm⟩
      · refine (hstrict hs).imp ?_
        intro x y hxy
        rw [less_false_iff]
        omega
      · refine (hmono hm).imp ?_
        intro x y hxy
        rw [less_false_iff]
        exact hxy
    have hfix : ∀ q, q.Sublist M → sort q = q := by
      intro q hq
      rcases hclock with hs | ⟨hst, _⟩
      · apply sort_eq_self_of_strict sort hS
        refine ((hstrict hs).sublist hq).imp ?_
        intro x y hxy
        simpa [Before] using hxy
      · exact sort_eq_self_of_stable sort hS hst q (List.Pairwise.sublist hq hsorted)
    have hnd : (M.map message.UUID).Nodup := by
      rw [huuid]
      exact hinv.nodup
    obtain ⟨db1, h1, _, _, hcache⟩ := putAll_ascending sort hS M ⟨c, [], []⟩ hinv0 hfix hsorted hnd
    have hb := hinv.bound
    have hcache2 : db1.sortedCache = M := by
      rw [hcache]
      show List.drop (([] ++ M).length - c.toNat) ([] ++ M) = M
      have hz : ([] ++ M).length - c.toNat = 0 := by
        simp only [List.nil_append, hlen, List.length_map]
        omega
      rw [hz]
      rfl
    have hfields : db1.sortedCache.map message.fields
        = (s.sortedCache.map message.fields).map (jsonFields.coerce J) := by
      rw [hcache2, hflds]
    refine ⟨_, db1, h0, ?_, hfields, ?_, ?_⟩
    · unfold messageDB.mergeRemoteDB
      rw [hdec]
      simp only
      rw [h1]
      rfl
    · rw [hcache2, huuid]
    · intro hsafe
      rw [hfields, List.map_map]
      apply List.map_congr_left
      intro m hm
      exact hsafe m hm

theorem C6_snapshot_roundtrip_witness :
    JsonLaws refJson ∧ SortContract insertionSort ∧ Reachable refJson insertionSort 2 exStore
      ∧ exStore.maxHistory ≤ 5
      ∧ (∀ m ∈ exStore.Messages, refJson.Coerce m.UUID = m.UUID)
      ∧ (∀ i j : Nat, i < j → exClock i < exClock j)
      ∧ (∀ m ∈ exStore.Messages, m.fields.coerce refJson = m.fields)
      ∧ (∃ db1, exStore.mergeRemoteDB refJson insertionSort exClock (encodeMessageDB refJson exStore)
          = some (db1, none))
      ∧ exStore.mergeRemoteDB refJson insertionSort exClock (encodeMessageDB refJson exStore)
          = some (exStore, none)
      ∧ ∃ fresh db1, newMessageDB 5 = some fresh
          ∧ fresh.mergeRemoteDB refJson insertionSort exClock (encodeMessageDB refJson exStore)
              = some (db1, none)
          ∧ db1.Messages.map message.fields
              = (exStore.Messages.map message.fields).map (jsonFields.coerce refJson)
          ∧ db1.Messages.map message.UUID = exStore.Messages.map message.UUID
          ∧ db1.Messages.map message.fields = exStore.Messages.map message.fields := by
  have hclock : ∀ i j : Nat, i < j → exClock i < exClock j := by
    intro i j hij
    unfold exClock
    omega
  have hvalid : ∀ m ∈ exStore.Messages, refJson.Coerce m.UUID = m.UUID := by decide
  obtain ⟨h1, h2, h3⟩ := C6_snapshot_roundtrip refJson refJson_laws insertionSort
    insertionSort_contract 2 exStore exStore_reachable exClock 5 (by decide)
  obtain ⟨fresh, db1, hf, hm, hfields, huuid, hsame⟩ := h3 hvalid (Or.inl hclock)
  exact ⟨refJson_laws, insertionSort_contract, exStore_reachable, by decide, hvalid, hclock,
    by decide, h1, h2 hvalid, fresh, db1, hf, hm, hfields, huuid, hsame (by decide)⟩

/-- C6 as stated fails, in four ways.  The author of `exAnnFF` ends with the
byte `FF`: the snapshot carries U+FFFD in its place, so the fresh store lists
another author than `s`.  With a clock that gives the same reading twice and a
`sort.Sort` that does not keep equal elements in order, the fresh store lists
`M3` before `M2`; with readings that go backwards it does so under any sort.
And the UUID of `exBadId` is not valid UTF-8: the snapshot carries another
UUID, which the store does not know, so merging the snapshot of the store into
the store itself adds a message, and the fresh store lists another UUID. -/
theorem C6_counterexample :
    (Reachable refJson insertionSort 2 exStoreFF
      ∧ ∃ fresh db1, newMessageDB 5 = some fresh
          ∧ fresh.mergeRemoteDB refJson insertionSort exClock (encodeMessageDB refJson exStoreFF)
              = some (db1, none)
          ∧ db1.Messages.map message.Author = [ascii "ann" ++ [0xEF, 0xBF, 0xBD]]
          ∧ db1.Messages.map message.fields ≠ exStoreFF.Messages.map message.fields)
    ∧ (SortContract reverseSort ∧ Reachable refJson reverseSort 2 exStore
      ∧ ∃ fresh db1, newMessageDB 5 = some fresh
          ∧ fresh.mergeRemoteDB refJson reverseSort exFlatClock (encodeMessageDB refJson exStore)
              = some (db1, none)
          ∧ db1.Messages.map message.UUID = [ascii "m3", ascii "m2"]
          ∧ exStore.Messages.map message.UUID = [ascii "m2", ascii "m3"])
    ∧ (Reachable refJson insertionSort 2 exStore
      ∧ ∃ fresh db1, newMessageDB 5 = some fresh
          ∧ fresh.mergeRemoteDB refJson insertionSort exBackClock (encodeMessageDB refJson exStore)
              = some (db1, none)
          ∧ db1.Messages.map message.UUID = [ascii "m3", ascii "m2"])
    ∧ (Reachable refJson insertionSort 2 exStoreBadId
      ∧ (∃ db1, exStoreBadId.mergeRemoteDB refJson insertionSort exClock
              (encodeMessageDB refJson exStoreBadId) = some (db1, none)
          ∧ db1.Messages.length = 2 ∧ db1 ≠ exStoreBadId)
      ∧ ∃ fresh db1, newMessageDB 5 = some fresh
          ∧ fresh.mergeRemoteDB refJson insertionSort exClock (encodeMessageDB refJson exStoreBadId)
              = some (db1, none)
          ∧ db1.Messages.map message.UUID = [ascii "id-" ++ [0xEF, 0xBF, 0xBD]]
          ∧ exStoreBadId.Messages.map message.UUID = [ascii "id-" ++ [0xFF]]) := by
  refine ⟨⟨?_, ?_⟩, ⟨reverseSort_contract, ?_, ?_⟩, ⟨exStore_reachable, ?_⟩, ⟨?_, ?_, ?_⟩⟩
  · exact Reachable.afterPut ⟨2, [], []⟩ exAnnFF exStoreFF (Reachable.init _ (by decide)) (by decide)
  · exact ⟨⟨5, [], []⟩,
      ⟨5, [(ascii "m1", ⟨10, ascii "m1", ascii "ann" ++ [0xEF, 0xBF, 0xBD], ascii "one"⟩)],
        [⟨10, ascii "m1", ascii "ann" ++ [0xEF, 0xBF, 0xBD], ascii "one"⟩]⟩,
      by decide, by decide, by decide, by decide⟩
  · have h0 : Reachable refJson reverseSort 2 ⟨2, [], []⟩ := Reachable.init _ (by decide)
    have h1 := Reachable.afterPut _ exM1 ⟨2, [(ascii "m1", exM1)], [exM1]⟩ h0 (by decide)
    have h2 := Reachable.afterPut _ exM2
      ⟨2, [(ascii "m2", exM2), (ascii "m1", exM1)], [exM1, exM2]⟩ h1 (by decide)
    exact Reachable.afterPut _ exM3 exStore h2 (by decide)
  · exact ⟨⟨5, [], []⟩,
      ⟨5, [(ascii "m3", ⟨10, ascii "m3", ascii "cat", ascii "three"⟩),
            (ascii "m2", ⟨10, ascii "m2", ascii "bob", ascii "two"⟩)],
        [⟨10, ascii "m3", ascii "cat", ascii "three"⟩, ⟨10, ascii "m2", ascii "bob", ascii "two"⟩]⟩,
      by decide, by decide, by decide, by decide⟩
  · exact ⟨⟨5, [], []⟩,
      ⟨5, [(ascii "m3", ⟨9, ascii "m3", ascii "cat", ascii "three"⟩),
            (ascii "m2", ⟨10, ascii "m2", ascii "bob", ascii "two"⟩)],
        [⟨9, ascii "m3", ascii "cat", ascii "three"⟩, ⟨10, ascii "m2", ascii "bob", ascii "two"⟩]⟩,
      by decide, by decide, by decide⟩
  · exact Reachable.afterPut ⟨2, [], []⟩ exBadId exStoreBadId (Reachable.init _ (by decide))
      (by decide)
  · exact ⟨⟨2, [(ascii "id-" ++ [0xEF, 0xBF, 0xBD],
              ⟨10, ascii "id-" ++ [0xEF, 0xBF, 0xBD], ascii "ann", ascii "hello"⟩),
            (ascii "id-" ++ [0xFF], exBadId)],
        [exBadId, ⟨10, ascii "id-" ++ [0xEF, 0xBF, 0xBD], ascii "ann", ascii "hello"⟩]⟩,
      by decide, by decide, by decide⟩
  · exact ⟨⟨5, [], []⟩,
      ⟨5, [(ascii "id-" ++ [0xEF, 0xBF, 0xBD],
              ⟨10, ascii "id-" ++ [0xEF, 0xBF, 0xBD], ascii "ann", ascii "hello"⟩)],
        [⟨10, ascii "id-" ++ [0xEF, 0xBF, 0xBD], ascii "ann", ascii "hello"⟩]⟩,
      by decide, by decide, by decide, by decide⟩

/-! ## Merging when the capacity holds every UUID -/

theorem nodup_length_le_dedup (l U : List GoString) (hnd : l.Nodup) (hsub : ∀ u ∈ l, u ∈ U) :
    l.length ≤ U.dedup.length :=
  (List.subperm_of_subset hnd (fun u hu => List.mem_dedup.2 (hsub u hu))).length_le

/-- When the capacity is at least the number of distinct UUIDs among the store
and the incoming messages, nothing is rejected and nothing is evicted. -/
theorem putAll_roomy (sort : List message → List message) (hS : SortContract sort)
    (U : List GoString) (ms : List message) :
    ∀ db : messageDB, Inv db →
      (∀ u ∈ db.sortedCache.map message.UUID, u ∈ U) →
      (∀ u ∈ ms.map message.UUID, u ∈ U) →
      (U.dedup.length : Int) ≤ db.maxHistory →
      ∃ db1, db.putAll sort ms = some db1 ∧ Inv db1
        ∧ (∀ u, u ∈ db1.sortedCache.map message.UUID
            ↔ u ∈ db.sortedCache.map message.UUID ∨ u ∈ ms.map message.UUID)
        ∧ (∀ x ∈ db.sortedCache, x ∈ db1.sortedCache)
        ∧ (∀ y ∈ db1.sortedCache, y ∈ db.sortedCache ∨ y ∈ ms) := by
  induction ms with
  | nil =>
    intro db hinv _ _ _
    exact ⟨db, rfl, hinv, by simp, fun x hx => hx, fun y hy => Or.inl hy⟩
  | cons m ms ih =>
    intro db hinv hdbU hmsU hU
    have hmsU2 : ∀ u ∈ ms.map message.UUID, u ∈ U :=
      fun u hu => hmsU u (by rw [List.map_cons]; exact List.mem_cons_of_mem _ hu)
    cases hk : mapHas db.uuidToMsg m.UUID with
    | true =>
      obtain ⟨db2, h2, hinv2, huu, hkeep, hfrom⟩ := ih db hinv hdbU hmsU2 hU
      refine ⟨db2, (putAll_cons sort db db m ms (put_known sort db m hk)).trans h2, hinv2,
        ?_, hkeep, ?_⟩
      · intro u
        rw [huu u, List.map_cons, List.mem_cons]
        constructor
        · rintro (h1 | h1)
          · exact Or.inl h1
          · exact Or.inr (Or.inr h1)
        · rintro (h1 | h1 | h1)
          · exact Or.inl h1
          · exact Or.inl (h1 ▸ (hinv.known_iff m.UUID).1 hk)
          · exact Or.inr h1
      · intro y hy
        rcases hfrom y hy with h1 | h1
        · exact Or.inl h1
        · exact Or.inr (List.mem_cons_of_mem _ h1)
    | false =>
      have hnot := not_has_of_false hinv m hk
      have hlen : (m.UUID :: db.sortedCache.map message.UUID).length ≤ U.dedup.length := by
        apply nodup_length_le_dedup _ U (List.nodup_cons.2 ⟨hnot, hinv.nodup⟩)
        intro u hu
        rcases List.mem_cons.1 hu with e | e
        · rw [e]
          exact hmsU m.UUID (by simp)
        · exact hdbU u e
      have hlt : (db.uuidToMsg.length : Int) < db.maxHistory := by
        rw [hinv.length_eq]
        simp only [List.length_cons, List.length_map] at hlen
        omega
      have ht : db.tooOld m = some false := by
        unfold messageDB.tooOld
        rw [if_neg (by omega)]
      have hput := put_room sort db m hk ht hlt
      have hinv1 := inv_room sort hS db m hinv hk hlt
      have hperm := hS.perm (db.sortedCache ++ [m])
      have hmem1 : ∀ x, x ∈ sort (db.sortedCache ++ [m]) ↔ x ∈ db.sortedCache ∨ x = m := by
        intro x
        rw [hperm.mem_iff]
        simp
      have hmemu : ∀ u, u ∈ (sort (db.sortedCache ++ [m])).map message.UUID
          ↔ u ∈ db.sortedCache.map message.UUID ∨ u = m.UUID := by
        intro u
        rw [(hperm.map message.UUID).mem_iff]
        simp
      obtain ⟨db2, h2, hinv2, huu, hkeep, hfrom⟩ := ih _ hinv1
        (by
          intro u hu
          rcases (hmemu u).1 hu with e | e
          · exact hdbU u e
          · rw [e]
            exact hmsU m.UUID (by simp))
        hmsU2 hU
      refine ⟨db2, (putAll_cons sort db _ m ms hput).trans h2, hinv2, ?_, ?_, ?_⟩
      · intro u
        rw [huu u, hmemu u, List.map_cons, List.mem_cons]
        tauto
      · intro x hx
        exact hkeep x ((hmem1 x).2 (Or.inl hx))
      · intro y hy
        rcases hfrom y hy with h1 | h1
        · rcases (hmem1 y).1 h1 with e | e
          · exact Or.inl e
          · exact Or.inr (e ▸ List.mem_cons_self _ _)
        · exact Or.inr (List.mem_cons_of_mem _ h1)

/-- Merging the snapshot of `B` into `A` when the capacity of `A` holds every UUID of both. -/
theorem merge_roomy (J : Json) (hJ : JsonLaws J) (sort : List message → List message)
    (hS : SortContract sort) (A B : messageDB) (hA : Inv A) (clock : Nat → Int)
    (U : List GoString)
    (hvalid : ∀ m ∈ B.sortedCache, J.Coerce m.UUID = m.UUID)
    (hAU : ∀ u ∈ A.sortedCache.map message.UUID, u ∈ U)
    (hBU : ∀ u ∈ B.sortedCache.map message.UUID, u ∈ U)
    (hU : (U.dedup.length : Int) ≤ A.maxHistory) :
    ∃ A1, A.mergeRemoteDB J sort clock (encodeMessageDB J B) = some (A1, none) ∧ Inv A1
      ∧ (∀ u, u ∈ A1.sortedCache.map message.UUID
          ↔ u ∈ A.sortedCache.map message.UUID ∨ u ∈ B.sortedCache.map message.UUID)
      ∧ (∀ x ∈ A.sortedCache, x ∈ A1.sortedCache)
      ∧ (∀ y ∈ A1.sortedCache, y ∈ A.sortedCache
          ∨ y.fields ∈ (B.sortedCache.map message.fields).map (jsonFields.coerce J)) := by
  have hdec := unmarshalExport_encode J hJ clock B
  have huuid := stamp_uuid_of_valid J clock B hvalid
  have hflds := stamp_fields clock ((B.sortedCache.map message.fields).map (jsonFields.coerce J)) 0
  generalize stamp clock 0 ((B.sortedCache.map message.fields).map (jsonFields.coerce J)) = M
    at hdec huuid hflds
  obtain ⟨A1, h1, hinv1, huu, hkeep, hfrom⟩ := putAll_roomy sort hS U M A hA hAU
    (by rw [huuid]; exact hBU) hU
  refine ⟨A1, ?_, hinv1, ?_, hkeep, ?_⟩
  · unfold messageDB.mergeRemoteDB
    rw [hdec]
    simp only
    rw [h1]
    rfl
  · intro u
    rw [huu u, huuid]
  · intro y hy
    rcases hfrom y hy with e | e
    · exact Or.inl e
    · right
      have := List.mem_map_of_mem message.fields e
      rw [hflds] at this
      exact this

/-- After a roomy merge of `B` into `A`, when the two stores agree on the fields
of the UUIDs they share, the merged store holds the fields of both. -/
theorem merged_fields (A B A1 : messageDB) (hB : Inv B)
    (huu : ∀ u, u ∈ A1.sortedCache.map message.UUID
        ↔ u ∈ A.sortedCache.map message.UUID ∨ u ∈ B.sortedCache.map message.UUID)
    (hkeep : ∀ x ∈ A.sortedCache, x ∈ A1.sortedCache)
    (hfrom : ∀ y ∈ A1.sortedCache, y ∈ A.sortedCache ∨ y.fields ∈ B.sortedCache.map message.fields)
    (hagree : ∀ x ∈ A.sortedCache, ∀ y ∈ B.sortedCache, x.UUID = y.UUID → x.fields = y.fields)
    (f : jsonFields) :
    f ∈ A1.sortedCache.map message.fields
      ↔ f ∈ A.sortedCache.map message.fields ∨ f ∈ B.sortedCache.map message.fields := by
  constructor
  · intro hf
    obtain ⟨y, hy, hyf⟩ := List.mem_map.1 hf
    rcases hfrom y hy with e | e
    · exact Or.inl (hyf ▸ List.mem_map_of_mem message.fields e)
    · exact Or.inr (hyf ▸ e)
  · rintro (hf | hf)
    · obtain ⟨x, hx, hxf⟩ := List.mem_map.1 hf
      exact hxf ▸ List.mem_map_of_mem message.fields (hkeep x hx)
    · obtain ⟨y, hy, hyf⟩ := List.mem_map.1 hf
      obtain ⟨z, hz, hzu⟩ := List.mem_map.1
        ((huu y.UUID).2 (Or.inr (List.mem_map_of_mem message.UUID hy)))
      have hzf : z.fields = y.fields := by
        rcases hfrom z hz with e | e
        · exact hagree z e y hy hzu
        · obtain ⟨y1, hy1, hy1f⟩ := List.mem_map.1 e
          have hu1 : y1.UUID = y.UUID := by
            have : y1.fields.UUID = z.fields.UUID := by rw [hy1f]
            exact this.trans hzu
          have := List.inj_on_of_nodup_map hB.nodup hy1 hy hu1
          rw [← hy1f, this]
      rw [← hyf, ← hzf]
      exact List.mem_map_of_mem message.fields hz

/-- C5 as amended, cross-merge convergence: for two reachable stores `A` and `B`
whose UUIDs are valid UTF-8 (JSON carries them unchanged) and whose capacities
are at least the number of distinct UUIDs in their union, merging the snapshot
of `B` into `A` and the snapshot of the original `A` into `B` returns no error
and yields two stores that hold exactly the UUIDs of the union, each UUID once;
each store keeps its own messages as they were, takes the fields of the others
from the snapshot as JSON carries them, and is ordered by its own timestamps;
when in addition JSON carries every author and text of `A` and `B` unchanged
and the two stores agree on the fields of the UUIDs they share, both end with
the same messages (UUID, author, text), those of the union.  Nothing is said of
the order of one store relative to the other. -/
theorem C5_cross_merge (J : Json) (hJ : JsonLaws J) (sort : List message → List message)
    (hS : SortContract sort) (nA nB : Int) (A B : messageDB)
    (hA : Reachable J sort nA A) (hB : Reachable J sort nB B) (clockA clockB : Nat → Int)
    (hvalidA : ∀ m ∈ A.Messages, J.Coerce m.UUID = m.UUID)
    (hvalidB : ∀ m ∈ B.Messages, J.Coerce m.UUID = m.UUID)
    (hcapA : ((((A.Messages ++ B.Messages).map message.UUID).dedup.length : Nat) : Int)
      ≤ A.maxHistory)
    (hcapB : ((((A.Messages ++ B.Messages).map message.UUID).dedup.length : Nat) : Int)
      ≤ B.maxHistory) :
    ∃ A1 B1, A.mergeRemoteDB J sort clockA (encodeMessageDB J B) = some (A1, none)
      ∧ B.mergeRemoteDB J sort clockB (encodeMessageDB J A) = some (B1, none)
      ∧ (∀ u, u ∈ A1.Messages.map message.UUID
          ↔ u ∈ A.Messages.map message.UUID ∨ u ∈ B.Messages.map message.UUID)
      ∧ (∀ u, u ∈ B1.Messages.map message.UUID
          ↔ u ∈ A.Messages.map message.UUID ∨ u ∈ B.Messages.map message.UUID)
      ∧ (A1.Messages.map message.UUID).Nodup ∧ (B1.Messages.map message.UUID).Nodup
      ∧ A1.Messages.Pairwise (fun x y => Before y.Time x.Time = false)
      ∧ B1.Messages.Pairwise (fun x y => Before y.Time x.Time = false)
      ∧ (∀ x ∈ A.Messages, x ∈ A1.Messages) ∧ (∀ x ∈ B.Messages, x ∈ B1.Messages)
      ∧ (∀ y ∈ A1.Messages, y ∈ A.Messages
          ∨ y.fields ∈ (B.Messages.map message.fields).map (jsonFields.coerce J))
      ∧ (∀ y ∈ B1.Messages, y ∈ B.Messages
          ∨ y.fields ∈ (A.Messages.map message.fields).map (jsonFields.coerce J))
      ∧ ((∀ x ∈ A.Messages, x.fields.coerce J = x.fields) →
          (∀ y ∈ B.Messages, y.fields.coerce J = y.fields) →
          (∀ x ∈ A.Messages, ∀ y ∈ B.Messages, x.UUID = y.UUID → x.fields = y.fields) →
          ∀ f, (f ∈ A1.Messages.map message.fields
                ↔ f ∈ A.Messages.map message.fields ∨ f ∈ B.Messages.map message.fields)
            ∧ (f ∈ B1.Messages.map message.fields
                ↔ f ∈ A.Messages.map message.fields ∨ f ∈ B.Messages.map message.fields)) := by
  obtain ⟨hinvA, _⟩ := hA.inv hS
  obtain ⟨hinvB, _⟩ := hB.inv hS
  unfold messageDB.Messages at *
  have hAU : ∀ u ∈ A.sortedCache.map message.UUID,
      u ∈ (A.sortedCache ++ B.sortedCache).map message.UUID := by
    intro u hu
    rw [List.map_append]
    exact List.mem_append_left _ hu
  have hBU : ∀ u ∈ B.sortedCache.map message.UUID,
      u ∈ (A.sortedCache ++ B.sortedCache).map message.UUID := by
    intro u hu
    rw [List.map_append]
    exact List.mem_append_right _ hu
  obtain ⟨A1, hA1, hinvA1, huA, hkeepA, hfromA⟩ :=
    merge_roomy J hJ sort hS A B hinvA clockA _ hvalidB hAU hBU hcapA
  obtain ⟨B1, hB1, hinvB1, huB, hkeepB, hfromB⟩ :=
    merge_roomy J hJ sort hS B A hinvB clockB _ hvalidA hBU hAU hcapB
  refine ⟨A1, B1, hA1, hB1, huA, fun u => (huB u).trans Or.comm, hinvA1.nodup, hinvB1.nodup,
    hinvA1.sorted, hinvB1.sorted, hkeepA, hkeepB, hfromA, hfromB, ?_⟩
  intro hsafeA hsafeB hagree f
  have hsame : ∀ C : messageDB, (∀ x ∈ C.sortedCache, x.fields.coerce J = x.fields) →
      (C.sortedCache.map message.fields).map (jsonFields.coerce J)
        = C.sortedCache.map message.fields := by
    intro C hC
    rw [List.map_map]
    apply List.map_congr_left
    intro m hm
    exact hC m hm
  rw [hsame B hsafeB] at hfromA
  rw [hsame A hsafeA] at hfromB
  refine ⟨merged_fields A B A1 hinvB huA hkeepA hfromA hagree f, ?_⟩
  refine (merged_fields B A B1 hinvA huB hkeepB hfromB ?_ f).trans Or.comm
  intro y hy x hx hyx
  exact (hagree x hx y hy hyx.symm).symm

theorem exA_reachable : Reachable refJson insertionSort 10 exA := by
  have h0 : Reachable refJson insertionSort 10 ⟨10, [], []⟩ := Reachable.init _ (by decide)
  have h1 := Reachable.afterPut _ exMa ⟨10, [(ascii "a", exMa)], [exMa]⟩ h0 (by decide)
  exact Reachable.afterPut _ exMb exA h1 (by decide)

theorem exB_reachable : Reachable refJson insertionSort 10 exB := by
  have h0 : Reachable refJson insertionSort 10 ⟨10, [], []⟩ := Reachable.init _ (by decide)
  have h1 := Reachable.afterPut _ exMb ⟨10, [(ascii "b", exMb)], [exMb]⟩ h0 (by decide)
  exact Reachable.afterPut _ exMc exB h1 (by decide)

theorem C5_cross_merge_witness :
    JsonLaws refJson ∧ SortContract insertionSort
      ∧ Reachable refJson insertionSort 10 exA ∧ Reachable refJson insertionSort 10 exB
      ∧ (∀ m ∈ exA.Messages, refJson.Coerce m.UUID = m.UUID)
      ∧ (∀ m ∈ exB.Messages, refJson.Coerce m.UUID = m.UUID)
      ∧ ((((exA.Messages ++ exB.Messages).map message.UUID).dedup.length : Nat) : Int)
          ≤ exA.maxHistory
      ∧ ((((exA.Messages ++ exB.Messages).map message.UUID).dedup.length : Nat) : Int)
          ≤ exB.maxHistory
      ∧ (∀ x ∈ exA.Messages, x.fields.coerce refJson = x.fields)
      ∧ (∀ y ∈ exB.Messages, y.fields.coerce refJson = y.fields)
      ∧ (∀ x ∈ exA.Messages, ∀ y ∈ exB.Messages, x.UUID = y.UUID → x.fields = y.fields)
      ∧ ∃ A1 B1,
          exA.mergeRemoteDB refJson insertionSort exClock (encodeMessageDB refJson exB)
            = some (A1, none)
          ∧ exB.mergeRemoteDB refJson insertionSort exClock (encodeMessageDB refJson exA)
            = some (B1, none)
          ∧ (∀ u, u ∈ A1.Messages.map message.UUID
              ↔ u ∈ exA.Messages.map message.UUID ∨ u ∈ exB.Messages.map message.UUID)
          ∧ (∀ u, u ∈ B1.Messages.map message.UUID
              ↔ u ∈ exA.Messages.map message.UUID ∨ u ∈ exB.Messages.map message.UUID)
          ∧ (A1.Messages.map message.UUID).Nodup ∧ (B1.Messages.map message.UUID).Nodup
          ∧ A1.Messages.Pairwise (fun x y => Before y.Time x.Time = false)
          ∧ B1.Messages.Pairwise (fun x y => Before y.Time x.Time = false)
          ∧ (∀ x ∈ exA.Messages, x ∈ A1.Messages) ∧ (∀ x ∈ exB.Messages, x ∈ B1.Messages)
          ∧ (∀ y ∈ A1.Messages, y ∈ exA.Messages
              ∨ y.fields ∈ (exB.Messages.map message.fields).map (jsonFields.coerce refJson))
          ∧ (∀ y ∈ B1.Messages, y ∈ exB.Messages
              ∨ y.fields ∈ (exA.Messages.map message.fields).map (jsonFields.coerce refJson))
          ∧ ∀ f, (f ∈ A1.Messages.map message.fields
                    ↔ f ∈ exA.Messages.map message.fields ∨ f ∈ exB.Messages.map message.fields)
                ∧ (f ∈ B1.Messages.map message.fields
                    ↔ f ∈ exA.Messages.map message.fields
                      ∨ f ∈ exB.Messages.map message.fields) := by
  obtain ⟨A1, B1, h1, h2, h3, h4, h5, h6, h7, h8, h9, h10, h11, h12, h13⟩ :=
    C5_cross_merge refJson refJson_laws insertionSort insertionSort_contract 10 10 exA exB
      exA_reachable exB_reachable exClock exClock (by decide) (by decide) (by decide) (by decide)
  exact ⟨refJson_laws, insertionSort_contract, exA_reachable, exB_reachable, by decide, by decide,
    by decide, by decide, by decide, by decide, by decide,
    A1, B1, h1, h2, h3, h4, h5, h6, h7, h8, h9, h10, h11, h12,
    h13 (by decide) (by decide) (by decide)⟩

/-- C5 as stated fails, in three ways.  `A` holds `Ma`, `Mb` and `B` holds `Mb`,
`Mc`, both with capacity 10: a decoded message is stamped with the time of its
decoding, so after the two merges `A` lists `Ma, Mb, Mc` and `B` lists
`Mb, Mc, Ma`: the same three messages, not in the same order.  When `A` holds a
message whose author ends with the byte `FF` and `B` is empty, `A` keeps that
author while `B` receives it with U+FFFD in its place: the two stores do not
hold the same messages.  And when the UUID of the message is not valid UTF-8,
`B` receives it under another UUID: the two stores do not hold the same UUIDs. -/
theorem C5_counterexample :
    (Reachable refJson insertionSort 10 exA ∧ Reachable refJson insertionSort 10 exB
      ∧ ((((exA.Messages ++ exB.Messages).map message.UUID).dedup.length : Nat) : Int) ≤ 10
      ∧ ∃ A1 B1,
          exA.mergeRemoteDB refJson insertionSort exClock (encodeMessageDB refJson exB)
            = some (A1, none)
          ∧ exB.mergeRemoteDB refJson insertionSort exClock (encodeMessageDB refJson exA)
            = some (B1, none)
          ∧ A1.Messages.map message.fields = [exMa.fields, exMb.fields, exMc.fields]
          ∧ B1.Messages.map message.fields = [exMb.fields, exMc.fields, exMa.fields]
          ∧ A1.Messages.map message.fields ≠ B1.Messages.map message.fields)
    ∧ (Reachable refJson insertionSort 10 exAFF ∧ Reachable refJson insertionSort 10 exEmpty
      ∧ ((((exAFF.Messages ++ exEmpty.Messages).map message.UUID).dedup.length : Nat) : Int) ≤ 10
      ∧ ∃ A1 B1,
          exAFF.mergeRemoteDB refJson insertionSort exClock (encodeMessageDB refJson exEmpty)
            = some (A1, none)
          ∧ exEmpty.mergeRemoteDB refJson insertionSort exClock (encodeMessageDB refJson exAFF)
            = some (B1, none)
          ∧ A1.Messages.map message.Author = [ascii "ann" ++ [0xFF]]
          ∧ B1.Messages.map message.Author = [ascii "ann" ++ [0xEF, 0xBF, 0xBD]])
    ∧ (Reachable refJson insertionSort 10 exABadId
      ∧ ((((exABadId.Messages ++ exEmpty.Messages).map message.UUID).dedup.length : Nat) : Int)
          ≤ 10
      ∧ ∃ A1 B1,
          exABadId.mergeRemoteDB refJson insertionSort exClock (encodeMessageDB refJson exEmpty)
            = some (A1, none)
          ∧ exEmpty.mergeRemoteDB refJson insertionSort exClock (encodeMessageDB refJson exABadId)
            = some (B1, none)
          ∧ A1.Messages.map message.UUID = [ascii "id-" ++ [0xFF]]
          ∧ B1.Messages.map message.UUID = [ascii "id-" ++ [0xEF, 0xBF, 0xBD]]) := by
  refine ⟨⟨exA_reachable, exB_reachable, by decide, ?_⟩, ⟨?_, ?_, by decide, ?_⟩,
    ⟨?_, by decide, ?_⟩⟩
  · exact ⟨⟨10, [(ascii "c", ⟨11, ascii "c", ascii "cat", ascii "third"⟩), (ascii "b", exMb),
          (ascii "a", exMa)],
        [exMa, exMb, ⟨11, ascii "c", ascii "cat", ascii "third"⟩]⟩,
      ⟨10, [(ascii "a", ⟨10, ascii "a", ascii "ann", ascii "first"⟩), (ascii "c", exMc),
          (ascii "b", exMb)],
        [exMb, exMc, ⟨10, ascii "a", ascii "ann", ascii "first"⟩]⟩,
      by decide, by decide, by decide, by decide, by decide⟩
  · exact Reachable.afterPut ⟨10, [], []⟩ exAnnFF exAFF (Reachable.init _ (by decide)) (by decide)
  · exact Reachable.init _ (by decide)
  · exact ⟨exAFF,
      ⟨10, [(ascii "m1", ⟨10, ascii "m1", ascii "ann" ++ [0xEF, 0xBF, 0xBD], ascii "one"⟩)],
        [⟨10, ascii "m1", ascii "ann" ++ [0xEF, 0xBF, 0xBD], ascii "one"⟩]⟩,
      by decide, by decide, by decide, by decide⟩
  · exact Reachable.afterPut ⟨10, [], []⟩ exBadId exABadId (Reachable.init _ (by decide))
      (by decide)
  · exact ⟨exABadId,
      ⟨10, [(ascii "id-" ++ [0xEF, 0xBF, 0xBD],
              ⟨10, ascii "id-" ++ [0xEF, 0xBF, 0xBD], ascii "ann", ascii "hello"⟩)],
        [⟨10, ascii "id-" ++ [0xEF, 0xBF, 0xBD], ascii "ann", ascii "hello"⟩]⟩,
      by decide, by decide, by decide, by decide⟩

end gossipchat
